import Mathlib

/-!
Verification of `src/data/DataTools.js` from the HugeCSV repository.

The JavaScript source is shallowly embedded: byte views (`DataView`) become
`List Nat` of byte values, character codes become `Nat`, JS numbers used as
counters become `Nat` (or `Int` where the source mixes in
`Number.MIN_SAFE_INTEGER`), and the asynchronous orchestration of
`iterateBlobs` becomes an explicit state machine driven by an adversarial
task-completion order.
-/

namespace HugeCSV

/-- Configuration record from `defaultConfig` in DataTools.js.  The
`separator`, `qualifier` and `linebreak` fields hold the byte values the
source obtains via `charCodeAt(0)`. -/
structure Config where
  separator : Nat
  qualifier : Nat
  linebreak : Nat
  firstRowHeader : Bool
  maxRowSize : Nat
  chunkSize : Nat
deriving Repr, DecidableEq

/-- `defaultConfig` from DataTools.js: separator `,` (44), qualifier `"` (34),
linebreak `\n` (10), firstRowHeader true, maxRowSize 128 KiB, chunkSize 4 MiB. -/
def defaultConfig : Config :=
  { separator := 44, qualifier := 34, linebreak := 10,
    firstRowHeader := true, maxRowSize := 131072, chunkSize := 4194304 }

/-- Result of the byte-scanning loop inside `readRow`.  `fields` collects the
`(fieldOffset, length)` byte ranges pushed into the `result` array,
`offset` is the final value of the loop variable `i`, `warnings` counts the
`console.warn` calls issued, and `exitFieldOffset` distinguishes the two ways
the loop ends: `none` means the loop returned at a line-break (the source
`return i + 1`), `some fo` means the loop ran off the end of the view with
the local `fieldOffset` equal to `fo`. -/
structure ScanOut where
  fields : List (Nat × Nat)
  offset : Nat
  warnings : Nat
  exitFieldOffset : Option Nat
deriving Repr, DecidableEq

/-- The `for` loop of `readRow` (DataTools.js lines 100-124), embedded with an
explicit iteration counter `rem`; callers instantiate `rem` with
`view.length - i`, so that `rem = 0` exactly when the loop guard
`i < view.byteLength` fails.  Each branch mirrors the source:
the qualifier cases (open quote / escaped quote / close quote / rogue
qualifier warning), the separator case pushing a field range, the line-break
case returning `i + 1`, and the default case that just advances.  In the
escaped-quote branch the source only assigns the dead local `char`, so the
scan state is unchanged.  The line-break branch contains the source's inner
`if (isInQuotes)` block even though the outer guard makes it unreachable. -/
def readRowScan (view : List Nat) (cfg : Config) :
    Nat → Nat → Nat → Bool → List (Nat × Nat) → Nat → ScanOut
  | 0, i, fieldOffset, _, result, warns => ⟨result, i, warns, some fieldOffset⟩
  | rem + 1, i, fieldOffset, isInQuotes, result, warns =>
    let char := view.getD i 0
    if char = cfg.qualifier then
      if i - fieldOffset = 0 ∧ isInQuotes = false then
        readRowScan view cfg rem (i + 1) fieldOffset true result warns
      else if i - fieldOffset ≠ 0 ∧ i + 1 < view.length ∧ view.getD (i + 1) 0 = cfg.qualifier then
        readRowScan view cfg rem (i + 1) fieldOffset isInQuotes result warns
      else if i - fieldOffset ≠ 0 ∧ isInQuotes = true then
        readRowScan view cfg rem (i + 1) fieldOffset false result warns
      else
        readRowScan view cfg rem (i + 1) fieldOffset isInQuotes result (warns + 1)
    else if char = cfg.separator ∧ isInQuotes = false then
      readRowScan view cfg rem (i + 1) (i + 1) isInQuotes
        (result ++ [(fieldOffset, i - fieldOffset)]) warns
    else if char = cfg.linebreak ∧ isInQuotes = false then
      ⟨result ++ [(fieldOffset, i - fieldOffset)], i + 1,
        (if isInQuotes = true then warns + 1 else warns), none⟩
    else
      readRowScan view cfg rem (i + 1) fieldOffset isInQuotes result warns

/-- The observable output of `readRow`: field byte ranges, returned offset and
number of `console.warn` calls. -/
structure RowResult where
  fields : List (Nat × Nat)
  offset : Nat
  warnings : Nat
deriving Repr, DecidableEq

/-- The tail of `readRow` after its loop: when the loop ran off the view
(`exitFieldOffset = some fo`) apply the source's trailing check
`if (i > fieldOffset) result.push(...)` (lines 126-129) before returning
`i`; when the loop returned at a line-break, pass its output through. -/
def readRowFinish (s : ScanOut) : RowResult :=
  match s.exitFieldOffset with
  | none => ⟨s.fields, s.offset, s.warnings⟩
  | some fo =>
    if fo < s.offset then ⟨s.fields ++ [(fo, s.offset - fo)], s.offset, s.warnings⟩
    else ⟨s.fields, s.offset, s.warnings⟩

/-- `readRow` (DataTools.js lines 92-130): run the scanning loop from
`offset`, then apply the trailing-field check. -/
def readRow (view : List Nat) (offset : Nat) (cfg : Config) : RowResult :=
  readRowFinish (readRowScan view cfg (view.length - offset) offset offset false [] 0)

/-- Per-column statistics record pushed by `readHeader` (DataTools.js lines
144-152) and accumulated by `analyzeBlobs`.  `name` is the column name as a
list of character codes.  `minLength`/`maxLength` are `Int` because the
source initializes them to `Number.MAX_SAFE_INTEGER` and
`Number.MIN_SAFE_INTEGER` (the latter negative). -/
structure ColumnStat where
  name : List Nat
  minLength : Int
  maxLength : Int
  emptyCount : Nat
  stringCount : Nat
  intCount : Nat
  floatCount : Nat
deriving Repr, DecidableEq

/-- `Number.MAX_SAFE_INTEGER`. -/
def maxSafeInteger : Int := 9007199254740991

/-- `Number.MIN_SAFE_INTEGER`. -/
def minSafeInteger : Int := -9007199254740991

/-- Whether a character code is in the set removed by JavaScript
`String.prototype.trim` (for code units below 256: TAB, LF, VT, FF, CR,
space, NBSP). -/
def isJsWhitespace (c : Nat) : Bool :=
  c = 9 || c = 10 || c = 11 || c = 12 || c = 13 || c = 32 || c = 160

/-- JavaScript `trim` on a list of character codes. -/
def jsTrim (s : List Nat) : List Nat :=
  ((s.dropWhile isJsWhitespace).reverse.dropWhile isJsWhitespace).reverse

/-- The `replace` with regular expression
`^qualifier(.+(?=qualifier$))qualifier$` in `readHeader` (line 141-143):
if the string starts and ends with the qualifier, the interior is nonempty,
and the interior contains no line terminator (the regex dot does not match
LF or CR), the surrounding qualifier pair is stripped; otherwise the string
is returned unchanged. -/
def stripQualifierPair (q : Nat) (s : List Nat) : List Nat :=
  if 3 ≤ s.length ∧ s.getD 0 0 = q ∧ s.getLast? = some q ∧
      ((s.drop 1).dropLast.all fun c => decide (c ≠ 10 ∧ c ≠ 13)) then
    (s.drop 1).dropLast
  else s

/-- The `cleanValue` computation of `readHeader` line 143:
`String.fromCharCode(...columns[i]).trim().replace(rx, '$1')`. -/
def cleanValue (q : Nat) (s : List Nat) : List Nat :=
  stripQualifierPair q (jsTrim s)

/-- The template string `Column${i}` as character codes. -/
def columnName (i : Nat) : List Nat :=
  [67, 111, 108, 117, 109, 110] ++ (Nat.toDigits 10 i).map Char.toNat

/-- The `for` loop of `readHeader` lines 142-153: one `ColumnStat` per parsed
field of the first row, with the name taken from the cleaned field bytes when
`firstRowHeader` is set and `Column${i}` otherwise.  `view` is the loaded
byte view; a field `(fo, len)` denotes the bytes `view[fo..fo+len)`. -/
def makeHeader (cfg : Config) (view : List Nat) : Nat → List (Nat × Nat) → List ColumnStat
  | _, [] => []
  | i, (fo, len) :: rest =>
    { name := if cfg.firstRowHeader then cleanValue cfg.qualifier ((view.drop fo).take len)
              else columnName i,
      minLength := maxSafeInteger,
      maxLength := minSafeInteger,
      emptyCount := 0, stringCount := 0, intCount := 0, floatCount := 0 } ::
    makeHeader cfg view (i + 1) rest

/-- `readHeader` (DataTools.js lines 132-159).  The blob machinery
`file.slice(0, Math.min(config.maxRowSize, file.size))` followed by `load()`
becomes a `take` on the file's byte list; the function returns the header
list and the offset `config.firstRowHeader ? offset : 0`. -/
def readHeader (file : List Nat) (cfg : Config) : List ColumnStat × Nat :=
  let view := file.take (min cfg.maxRowSize file.length)
  let r := readRow view 0 cfg
  (makeHeader cfg view 0 r.fields, if cfg.firstRowHeader then r.offset else 0)

/-- The tentative-window loop of `sliceFile` (DataTools.js lines 167-174):
starting at `offset`, push `(offset, min (offset + chunkSize) size)` while
`offset < size`, advancing by `chunkSize`.  The structural fuel argument
bounds the iteration count; callers pass `size`, which suffices whenever
`1 ≤ chunkSize` (the loop in the source does not terminate for
`chunkSize = 0`). -/
def tentativeOffsets (chunkSize : Nat) : Nat → Nat → Nat → List (Nat × Nat)
  | 0, _, _ => []
  | fuel + 1, offset, size =>
    if offset < size then
      (offset, min (offset + chunkSize) size) :: tentativeOffsets chunkSize fuel (offset + chunkSize) size
    else []

/-- The boundary-application loop of `sliceFile` (lines 192-195): for every
boundary `i` between window `i` and window `i+1` (all windows except the last
end), add the task-reported offset `d i` to the end of window `i` and to the
start of window `i+1`.  The accumulator `sh` carries the shift owed to the
current head's start by the previous boundary. -/
def applyDeltas (d : Nat → Nat) : List (Nat × Nat) → Nat → Nat → List (Nat × Nat)
  | [], _, _ => []
  | [(s, e)], sh, _ => [(s + sh, e)]
  | (s, e) :: next :: rest, sh, i =>
    (s + sh, e + d i) :: applyDeltas d (next :: rest) (d i) (i + 1)

/-- `sliceFile` (DataTools.js lines 161-202), with the worker pool's
`calculateOffsets` tasks abstracted as the reported-offset function `d`
(task `i` reports `d i`).  Returns the final `(start, end)` byte ranges of
the chunks handed to `file.slice`. -/
def sliceFile (size start chunkSize : Nat) (d : Nat → Nat) : List (Nat × Nat) :=
  applyDeltas d (tentativeOffsets chunkSize size start size) 0 0

/-- One column's slice of the `Uint32Array` metadata returned by an analyze
task, stride 6 per column: `[minLength, maxLength, intCount, floatCount,
stringCount, emptyCount]` (DataTools.js lines 234-242). -/
structure ColumnTally where
  minLength : Nat
  maxLength : Nat
  intCount : Nat
  floatCount : Nat
  stringCount : Nat
  emptyCount : Nat
deriving Repr, DecidableEq

/-- The per-column update of `analyzeBlobs` lines 236-242: `Math.min` /
`Math.max` on the lengths, elementwise sums on the counters. -/
def combineStat (s : ColumnStat) (t : ColumnTally) : ColumnStat :=
  { s with
    minLength := min s.minLength (t.minLength : Int),
    maxLength := max s.maxLength (t.maxLength : Int),
    intCount := s.intCount + t.intCount,
    floatCount := s.floatCount + t.floatCount,
    stringCount := s.stringCount + t.stringCount,
    emptyCount := s.emptyCount + t.emptyCount }

/-- The inner `for (ii …)` loop of `analyzeBlobs`, folding one chunk's
column tallies into the header's `ColumnStat` list position by position. -/
def foldColumns : List ColumnStat → List ColumnTally → List ColumnStat
  | s :: ss, t :: ts => combineStat s t :: foldColumns ss ts
  | ss, _ => ss

/-- Result of one analyze task: chunk sequence `index`, the chunk's
`stats.rowCount` and `stats.malformedRows`, and its per-column tallies. -/
structure AnalyzeResult where
  index : Nat
  rowCount : Nat
  malformedRows : Nat
  columns : List ColumnTally
deriving Repr, DecidableEq

/-- One iteration of the aggregation loop of `analyzeBlobs` lines 229-243,
acting on the accumulator `(header, rowCount, malformedRows)`. -/
def analyzeStep (acc : List ColumnStat × Nat × Nat) (r : AnalyzeResult) :
    List ColumnStat × Nat × Nat :=
  (foldColumns acc.1 r.columns, acc.2.1 + r.rowCount, acc.2.2 + r.malformedRows)

/-- The aggregation loop of `analyzeBlobs` (DataTools.js lines 222-249): fold
every chunk result into the shared header and the aggregate row/malformed
counts. -/
def analyzeFold (header : List ColumnStat) (results : List AnalyzeResult) :
    List ColumnStat × Nat × Nat :=
  results.foldl analyzeStep (header, 0, 0)

/-- The `result.header` record returned by one binary-mode parse task:
chunk row count, per-column observed byte widths, per-column type tags, and
the suggested column packing order. -/
structure MeasureHeader where
  rowCount : Nat
  lengths : List Nat
  types : List Nat
  order : List Nat
deriving Repr, DecidableEq

/-- Result of one binary-mode parse task (`index` is the chunk sequence
index; the encoded byte payload does not participate in the header fold). -/
structure BinParseResult where
  index : Nat
  header : MeasureHeader
deriving Repr, DecidableEq

/-- One column of the `BinaryHeader` (DataTools.js lines 344-349). -/
structure BinaryColumn where
  name : List Nat
  length : Nat
  offset : Nat
  type : Nat
deriving Repr, DecidableEq

/-- The `BinaryHeader` assembled by `binaryChunksFromBlobs`. -/
structure BinaryHeader where
  columns : List BinaryColumn
  rowCount : Nat
  rowLength : Nat
  dataLength : Nat
  dataOffset : Nat
deriving Repr, DecidableEq

/-- The column-initialization loop of `binaryChunksFromBlobs` lines 342-350:
one `BinaryColumn` per header column with `length = 0`, `offset = 0` and
`type = results[0].header.types[i]`. -/
def initColumns (types : List Nat) : Nat → List (List Nat) → List BinaryColumn
  | _, [] => []
  | i, nm :: rest => ⟨nm, 0, 0, types.getD i 0⟩ :: initColumns types (i + 1) rest

/-- The inner loop of lines 355-357: position-wise
`length = max length lengths[ii]` over the header columns. -/
def updateLengths : List BinaryColumn → List Nat → List BinaryColumn
  | c :: cs, l :: ls => { c with length := max c.length l } :: updateLengths cs ls
  | cs, _ => cs

/-- One iteration of the outer result loop of lines 353-359 on the
accumulator `(columns, rowCount)`. -/
def foldWidthStep (acc : List BinaryColumn × Nat) (r : BinParseResult) :
    List BinaryColumn × Nat :=
  (updateLengths acc.1 r.header.lengths, acc.2 + r.header.rowCount)

/-- The outer result loop of lines 353-359: accumulate the total row count
and fold every chunk's observed widths into the columns. -/
def foldWidths (cols : List BinaryColumn) (results : List BinParseResult) :
    List BinaryColumn × Nat :=
  results.foldl foldWidthStep (cols, 0)

/-- The offset-assignment loop of lines 361-365: walk the packing order,
setting `columns[order[i]].offset` to the accumulated offset and adding
`columns[order[i]].length`; returns the updated columns and the final
accumulated offset (which the source stores as `rowLength`). -/
def assignOffsets : List Nat → List BinaryColumn → Nat → List BinaryColumn × Nat
  | [], cols, off => (cols, off)
  | oi :: rest, cols, off =>
    let c := cols.getD oi ⟨[], 0, 0, 0⟩
    assignOffsets rest (cols.set oi { c with offset := off }) (off + c.length)

/-- The header fold of `binaryChunksFromBlobs` (DataTools.js lines 333-374)
after all parse tasks settle: initialize columns from the first result's
types, fold widths and row counts over every result, assign offsets along
the first result's packing order, and derive `rowLength` and
`dataLength = rowLength * rowCount`.  The source dereferences `results[0]`,
so the empty-results branch is unreachable in any run with at least one
chunk. -/
def binaryChunksFold (names : List (List Nat)) (results : List BinParseResult) : BinaryHeader :=
  match results with
  | [] => ⟨[], 0, 0, 0, 0⟩
  | r0 :: _ =>
    let cols0 := initColumns r0.header.types 0 names
    let folded := foldWidths cols0 results
    let assigned := assignOffsets r0.header.order folded.1 0
    { columns := assigned.1, rowCount := folded.2, rowLength := assigned.2,
      dataLength := assigned.2 * folded.2, dataOffset := 0 }

/-- The write regions computed by the shared-memory path of
`mergeChunksIntoBuffer` (DataTools.js lines 393-404): chunk `i` is handed
the region starting at the running `dataOffset`, which then advances by
`chunks[i].header.rowCount * binaryHeader.rowLength`.  Each region is
returned as `(start, byteSize)`. -/
def mergeRegions (rowLength : Nat) : List Nat → Nat → List (Nat × Nat)
  | [], _ => []
  | rc :: rest, dataOffset =>
    (dataOffset, rc * rowLength) :: mergeRegions rowLength rest (dataOffset + rc * rowLength)

/-- State of the `iterateBlobs` orchestration (DataTools.js lines 252-313).
`pending` models the `tasks` queue of not-yet-scheduled chunk indices,
`inFlight` the scheduled tasks whose `parseBlob` promise has not settled,
`buffered` the keys of the out-of-order `results` map, `blobIndex` and
`index` the closure variables of the same names, `emitted` the sequence of
row-callback invocations as `(chunkIndex, rowInChunk, globalIndex)` triples,
and `resolved` whether `resolve()` has been called. -/
structure IterState where
  pending : List Nat
  inFlight : List Nat
  buffered : List Nat
  blobIndex : Nat
  index : Nat
  emitted : List (Nat × Nat × Nat)
  resolved : Bool
deriving Repr, DecidableEq

/-- `if (tasks.length) workerPool.scheduleTask('parseBlob', tasks.shift())`:
move the head of `pending` (if any) into `inFlight`. -/
def schedule (s : IterState) : IterState :=
  { s with pending := s.pending.tail, inFlight := s.inFlight ++ s.pending.take 1 }

/-- `invokeIterator` (lines 277-289) for the chunk whose index is the current
`blobIndex`: invoke the row callback once per row of the chunk (row `i` of a
chunk with `rcs[blobIndex]` rows receives the global index `index + i`),
advance `index`, and call `resolve()` when `blobIndex >= blobs.length - 1`.
`n` is `blobs.length` and `rcs` the per-chunk row counts. -/
def emitChunk (n : Nat) (rcs : List Nat) (s : IterState) : IterState :=
  { s with
    emitted := s.emitted ++ (List.range (rcs.getD s.blobIndex 0)).map
      (fun i => (s.blobIndex, i, s.index + i)),
    index := s.index + rcs.getD s.blobIndex 0,
    resolved := s.resolved || decide (n ≤ s.blobIndex + 1) }

/-- The drain loop `while (results.hasOwnProperty(++blobIndex)) { … }`
(lines 297-303), with structural fuel: each pass consumes one buffered
result, so any fuel exceeding `buffered.length` gives the loop's exact
behaviour (the fuel-exhausted branch is unreachable from `drain`). -/
def drainFuel (n : Nat) (rcs : List Nat) : Nat → IterState → IterState
  | 0, s => s
  | fuel + 1, s =>
    if (s.blobIndex + 1) ∈ s.buffered then
      drainFuel n rcs fuel (schedule (emitChunk n rcs
        { s with blobIndex := s.blobIndex + 1,
                 buffered := s.buffered.erase (s.blobIndex + 1) }))
    else { s with blobIndex := s.blobIndex + 1 }

/-- The drain loop with sufficient fuel. -/
def drain (n : Nat) (rcs : List Nat) (s : IterState) : IterState :=
  drainFuel n rcs (s.buffered.length + 1) s

/-- `handleResult` (lines 291-307) for a settled task of chunk index `c`:
if `c` is the expected `blobIndex`, consume it (emit, schedule the next
pending task, drain buffered successors); otherwise buffer it. -/
def handleResult (n : Nat) (rcs : List Nat) (c : Nat) (s : IterState) : IterState :=
  if c = s.blobIndex then
    drain n rcs (schedule (emitChunk n rcs s))
  else
    { s with buffered := s.buffered ++ [c] }

/-- One completion event: the adversary settles the in-flight task of chunk
`c`.  `none` when `c` is not in flight (an invalid event). -/
def iterStep (n : Nat) (rcs : List Nat) (s : IterState) (c : Nat) : Option IterState :=
  if c ∈ s.inFlight then
    some (handleResult n rcs c { s with inFlight := s.inFlight.erase c })
  else none

/-- Run a sequence of completion events. -/
def runEvents (n : Nat) (rcs : List Nat) : IterState → List Nat → Option IterState
  | s, [] => some s
  | s, c :: cs =>
    match iterStep n rcs s c with
    | some s' => runEvents n rcs s' cs
    | none => none

/-- The seeding loop of `iterateBlobs` lines 309-311: starting from the
freshly built task queue `[0, …, n-1]`, call `tasks.shift()` and schedule the
result once per pool worker (`p` workers).  A `shift()` on an exhausted queue
schedules nothing observable. -/
def initState (p n : Nat) : IterState :=
  schedule^[p] ⟨List.range n, [], [], 0, 0, [], false⟩

/-- Sum of the row counts of the first `b` chunks: the value of the global
`index` counter after the rows of chunks `0 … b-1` have been replayed. -/
def prefixSum (rcs : List Nat) (b : Nat) : Nat :=
  (rcs.take b).sum

/-- The canonical callback transcript after chunks `0 … b-1` have been
consumed in order: chunk `c` contributes its rows `0 … rcs[c]-1`, each row
carrying the global running index. -/
def canonicalEmit (rcs : List Nat) : Nat → List (Nat × Nat × Nat)
  | 0 => []
  | b + 1 =>
    canonicalEmit rcs b ++
      (List.range (rcs.getD b 0)).map (fun i => (b, i, prefixSum rcs b + i))

/-- The rows of the source in order, as `(chunkIndex, rowInChunk)` pairs. -/
def sourceRows (rcs : List Nat) (b : Nat) : List (Nat × Nat) :=
  ((List.range b).map fun c => (List.range (rcs.getD c 0)).map fun i => (c, i)).flatten

/-- Main invariant of the `iterateBlobs` state machine, holding between
completion events.  `k` counts the tasks scheduled so far: the task queue is
the suffix `[k, …, n-1]`, and the scheduled indices `[0, …, k-1]` are
partitioned (as a multiset) into consumed (`[0, blobIndex)`), in-flight and
buffered; the expected index is never buffered; the pool only idles once the
queue is empty; the emission transcript, the row counter and the resolved
flag are determined by `blobIndex`. -/
def IterInv (n : Nat) (rcs : List Nat) (s : IterState) : Prop :=
  ∃ k, k ≤ n ∧ s.pending = List.range' k (n - k) ∧
    (List.range k : Multiset Nat) =
      (List.range s.blobIndex : Multiset Nat) + (s.inFlight : Multiset Nat) +
        (s.buffered : Multiset Nat) ∧
    s.blobIndex ∉ s.buffered ∧
    (s.inFlight = [] → n ≤ k) ∧
    s.emitted = canonicalEmit rcs s.blobIndex ∧
    s.index = prefixSum rcs s.blobIndex ∧
    s.resolved = decide (1 ≤ n ∧ n ≤ s.blobIndex)

/-- Intermediate invariant at entry to the drain loop: the chunk at the
current `blobIndex` has just been consumed (so the transcript, counter and
resolved flag correspond to `blobIndex + 1`), but `blobIndex` has not yet
been incremented past it. -/
def DrainInv (n : Nat) (rcs : List Nat) (t : IterState) : Prop :=
  1 ≤ n ∧ ∃ k, k ≤ n ∧ t.pending = List.range' k (n - k) ∧
    (List.range k : Multiset Nat) =
      (List.range (t.blobIndex + 1) : Multiset Nat) + (t.inFlight : Multiset Nat) +
        (t.buffered : Multiset Nat) ∧
    (t.inFlight = [] → n ≤ k) ∧
    t.emitted = canonicalEmit rcs (t.blobIndex + 1) ∧
    t.index = prefixSum rcs (t.blobIndex + 1) ∧
    t.resolved = decide (n ≤ t.blobIndex + 1)

/-! ### Theorems -/

lemma prefixSum_zero (rcs : List Nat) : prefixSum rcs 0 = 0 := rfl

lemma prefixSum_succ (rcs : List Nat) (b : Nat) (hb : b < rcs.length) :
    prefixSum rcs (b + 1) = prefixSum rcs b + rcs.getD b 0 := by
  unfold prefixSum
  rw [List.take_succ, List.sum_append, List.getElem?_eq_getElem hb]
  simp [List.getD_eq_getElem?_getD, List.getElem?_eq_getElem hb]

lemma prefixSum_mono (rcs : List Nat) {a b : Nat} (h : a ≤ b) :
    prefixSum rcs a ≤ prefixSum rcs b := by
  unfold prefixSum
  obtain ⟨c, rfl⟩ := Nat.exists_eq_add_of_le h
  rw [List.take_add, List.sum_append]
  exact Nat.le_add_right _ _

lemma mergeRegions_length (rowLength : Nat) :
    ∀ (rcs : List Nat) (off : Nat), (mergeRegions rowLength rcs off).length = rcs.length := by
  intro rcs
  induction rcs with
  | nil => intro off; rfl
  | cons rc rest ih => intro off; simp [mergeRegions, ih]

lemma mergeRegions_getD (rowLength : Nat) :
    ∀ (rcs : List Nat) (off i : Nat), i < rcs.length →
      (mergeRegions rowLength rcs off).getD i (0, 0) =
        (off + prefixSum rcs i * rowLength, rcs.getD i 0 * rowLength) := by
  intro rcs
  induction rcs with
  | nil => intro off i hi; simp at hi
  | cons rc rest ih =>
    intro off i hi
    cases i with
    | zero => simp [mergeRegions, prefixSum]
    | succ i =>
      have hi' : i < rest.length := by simpa using hi
      have := ih (off + rc * rowLength) i hi'
      simp only [mergeRegions, List.getD_cons_succ, this]
      have hps : prefixSum (rc :: rest) (i + 1) = rc + prefixSum rest i := by
        simp [prefixSum]
      rw [hps]
      simp only [Prod.mk.injEq]
      exact ⟨by ring, trivial⟩

lemma mergeRegions_lastEnd (rowLength : Nat) :
    ∀ (rcs : List Nat) (off : Nat), rcs ≠ [] →
      ((mergeRegions rowLength rcs off).getLast?).map (fun r => r.1 + r.2) =
        some (off + rcs.sum * rowLength) := by
  intro rcs
  induction rcs with
  | nil => intro off h; exact absurd rfl h
  | cons rc rest ih =>
    intro off _
    cases rest with
    | nil => simp [mergeRegions]
    | cons rc2 rest2 =>
      have hne : (rc2 :: rest2) ≠ ([] : List Nat) := by simp
      have hIH := ih (off + rc * rowLength) hne
      have h2 : mergeRegions rowLength (rc2 :: rest2) (off + rc * rowLength) =
          (off + rc * rowLength, rc2 * rowLength) ::
            mergeRegions rowLength rest2 (off + rc * rowLength + rc2 * rowLength) := rfl
      rw [mergeRegions, h2, List.getLast?_cons_cons, ← h2, hIH]
      congr 1
      simp [List.sum_cons]
      ring

/-- Claim C7: in the shared-memory merge path, chunk `i`'s write region
starts at `dataOffset` plus the total size of all prior chunks' regions
(`rowCount(j) * rowLength` each), spans `rowCount(i) * rowLength` bytes, the
regions are pairwise non-overlapping, and the last region ends exactly at
`dataOffset + dataLength` (with `dataLength` the header value
`rowLength * total row count`). -/
theorem mergeRegions_spec (rcs : List Nat) (rowLength dataOffset dataLength : Nat)
    (hdl : dataLength = rowLength * rcs.sum) :
    (∀ i, i < rcs.length →
       (mergeRegions rowLength rcs dataOffset).getD i (0, 0) =
         (dataOffset + prefixSum rcs i * rowLength, rcs.getD i 0 * rowLength)) ∧
    (∀ i j, i < j → j < rcs.length →
       ((mergeRegions rowLength rcs dataOffset).getD i (0, 0)).1 +
         ((mergeRegions rowLength rcs dataOffset).getD i (0, 0)).2 ≤
       ((mergeRegions rowLength rcs dataOffset).getD j (0, 0)).1) ∧
    (∀ i j x, i < rcs.length → j < rcs.length → i ≠ j →
       ((mergeRegions rowLength rcs dataOffset).getD i (0, 0)).1 ≤ x ∧
         x < ((mergeRegions rowLength rcs dataOffset).getD i (0, 0)).1 +
           ((mergeRegions rowLength rcs dataOffset).getD i (0, 0)).2 →
       ¬(((mergeRegions rowLength rcs dataOffset).getD j (0, 0)).1 ≤ x ∧
         x < ((mergeRegions rowLength rcs dataOffset).getD j (0, 0)).1 +
           ((mergeRegions rowLength rcs dataOffset).getD j (0, 0)).2)) ∧
    (rcs ≠ [] →
       ((mergeRegions rowLength rcs dataOffset).getLast?).map (fun r => r.1 + r.2) =
         some (dataOffset + dataLength)) := by
  have hget := mergeRegions_getD rowLength rcs dataOffset
  have horder : ∀ i j, i < j → j < rcs.length →
      ((mergeRegions rowLength rcs dataOffset).getD i (0, 0)).1 +
        ((mergeRegions rowLength rcs dataOffset).getD i (0, 0)).2 ≤
      ((mergeRegions rowLength rcs dataOffset).getD j (0, 0)).1 := by
    intro i j hij hj
    have hi : i < rcs.length := lt_trans hij hj
    rw [hget i hi, hget j hj]
    simp only
    have h1 : prefixSum rcs i * rowLength + rcs.getD i 0 * rowLength =
        prefixSum rcs (i + 1) * rowLength := by
      rw [prefixSum_succ rcs i hi, Nat.add_mul]
    have h2 : prefixSum rcs (i + 1) ≤ prefixSum rcs j := prefixSum_mono rcs hij
    calc dataOffset + prefixSum rcs i * rowLength + rcs.getD i 0 * rowLength
        = dataOffset + prefixSum rcs (i + 1) * rowLength := by rw [Nat.add_assoc, h1]
      _ ≤ dataOffset + prefixSum rcs j * rowLength :=
          Nat.add_le_add_left (Nat.mul_le_mul_right _ h2) _
  refine ⟨hget, horder, ?_, ?_⟩
  · intro i j x hi hj hij hx hx'
    rcases Nat.lt_or_ge i j with h | h
    · have := horder i j h hj
      omega
    · have hji : j < i := by omega
      have := horder j i hji hi
      omega
  · intro hne
    rw [mergeRegions_lastEnd rowLength rcs dataOffset hne, hdl]
    congr 2
    ring

/-- Witness for claim C7 at a concrete instance. -/
theorem mergeRegions_spec_witness :
    (12 = 3 * (2 + 1 + 1)) ∧
    (∀ i, i < 3 →
       (mergeRegions 3 [2, 1, 1] 5).getD i (0, 0) =
         (5 + prefixSum [2, 1, 1] i * 3, [2, 1, 1].getD i 0 * 3)) ∧
    (((mergeRegions 3 [2, 1, 1] 5).getLast?).map (fun r => r.1 + r.2) = some (5 + 12)) :=
  ⟨by decide,
   (mergeRegions_spec [2, 1, 1] 3 5 12 (by decide)).1,
   (mergeRegions_spec [2, 1, 1] 3 5 12 (by decide)).2.2.2 (by decide)⟩

/-- Claim C2 (code evaluation at the claimed failing input): on the bytes of
`"x,y\n` with the default configuration, `readRow` does not end the row at
the line-break (the line-break byte is scanned while `isInQuotes` holds, and
the guard `char === lineBreak && !isInQuotes` skips it, leaving the inner
unterminated-qualifier branch unreachable).  The function instead runs to the
end of the view and pushes the single raw field `(0, 5)` — all five bytes,
including the opening qualifier and the line-break — with no malformedness
warning. -/
theorem readRow_unterminated_quote_eval :
    readRow [34, 120, 44, 121, 10] 0 defaultConfig =
      { fields := [(0, 5)], offset := 5, warnings := 0 } := by decide

/-- Claim C3 (code evaluation at the claimed input): on the bytes of
`"a""b"\n` with the default configuration, the escaped-quote branch of
`readRow` only assigns the dead local `char`, so the second quote byte of
the pair closes quoting; the final qualifier then triggers the
rogue-qualifier warning (`warnings = 1`, impossible had quoting stayed
open), and the row is emitted as the single raw byte range `(0, 6)` — the
doubled quote is not reduced in the output. -/
theorem readRow_escaped_quote_eval :
    readRow [34, 97, 34, 34, 98, 34, 10] 0 defaultConfig =
      { fields := [(0, 6)], offset := 7, warnings := 1 } := by decide

lemma foldl_right_comm_perm {α β : Type} (f : β → α → β)
    (hf : ∀ b a a', f (f b a) a' = f (f b a') a) :
    ∀ {l l' : List α}, l.Perm l' → ∀ b, l.foldl f b = l'.foldl f b := by
  intro l l' hp
  induction hp with
  | nil => intro b; rfl
  | cons x _ ih => intro b; simp only [List.foldl_cons]; exact ih _
  | swap x y l => intro b; simp only [List.foldl_cons]; rw [hf]
  | trans _ _ ih1 ih2 => intro b; rw [ih1, ih2]

lemma combineStat_comm (s : ColumnStat) (a b : ColumnTally) :
    combineStat (combineStat s a) b = combineStat (combineStat s b) a := by
  simp only [combineStat]
  congr 1
  · rw [min_right_comm]
  · rw [sup_right_comm]
  · rw [Nat.add_right_comm]
  · rw [Nat.add_right_comm]
  · rw [Nat.add_right_comm]
  · rw [Nat.add_right_comm]

lemma foldColumns_comm :
    ∀ (h : List ColumnStat) (a b : List ColumnTally),
      foldColumns (foldColumns h a) b = foldColumns (foldColumns h b) a := by
  intro h
  induction h with
  | nil =>
    intro a b
    cases a <;> cases b <;> simp [foldColumns]
  | cons s ss ih =>
    intro a b
    cases a with
    | nil => cases b <;> simp [foldColumns]
    | cons ta tas =>
      cases b with
      | nil => simp [foldColumns]
      | cons tb tbs => simp [foldColumns, ih, combineStat_comm]

lemma analyzeStep_comm (acc : List ColumnStat × Nat × Nat) (r1 r2 : AnalyzeResult) :
    analyzeStep (analyzeStep acc r1) r2 = analyzeStep (analyzeStep acc r2) r1 := by
  simp only [analyzeStep, Prod.mk.injEq]
  exact ⟨foldColumns_comm _ _ _, by omega, by omega⟩

/-- Claim C6: the fold performed by `analyzeBlobs` is order-independent —
aggregating the per-chunk analysis results in any permutation yields the
same final `ColumnStat` list and the same aggregate row and malformed
counts. -/
theorem analyzeFold_perm (header : List ColumnStat) (results results' : List AnalyzeResult)
    (hp : results.Perm results') :
    analyzeFold header results = analyzeFold header results' :=
  foldl_right_comm_perm analyzeStep (fun b a a' => analyzeStep_comm b a a') hp _

/-- Witness for claim C6 at a concrete pair of permuted result lists. -/
theorem analyzeFold_perm_witness :
    ([⟨0, 3, 1, [⟨1, 5, 2, 0, 1, 0⟩]⟩, ⟨1, 2, 0, [⟨2, 4, 1, 1, 0, 0⟩]⟩] :
        List AnalyzeResult).Perm
      [⟨1, 2, 0, [⟨2, 4, 1, 1, 0, 0⟩]⟩, ⟨0, 3, 1, [⟨1, 5, 2, 0, 1, 0⟩]⟩] ∧
    analyzeFold [⟨[97], maxSafeInteger, minSafeInteger, 0, 0, 0, 0⟩]
        [⟨0, 3, 1, [⟨1, 5, 2, 0, 1, 0⟩]⟩, ⟨1, 2, 0, [⟨2, 4, 1, 1, 0, 0⟩]⟩] =
      analyzeFold [⟨[97], maxSafeInteger, minSafeInteger, 0, 0, 0, 0⟩]
        [⟨1, 2, 0, [⟨2, 4, 1, 1, 0, 0⟩]⟩, ⟨0, 3, 1, [⟨1, 5, 2, 0, 1, 0⟩]⟩] :=
  ⟨by decide, analyzeFold_perm _ _ _ (by decide)⟩

lemma tentativeOffsets_nil (cs fuel offset size : Nat) (h : ¬ offset < size) :
    tentativeOffsets cs fuel offset size = [] := by
  cases fuel <;> simp [tentativeOffsets, h]

lemma tentativeOffsets_cons (cs fuel offset size : Nat) (h : offset < size) :
    tentativeOffsets cs (fuel + 1) offset size =
      (offset, min (offset + cs) size) :: tentativeOffsets cs fuel (offset + cs) size := by
  simp [tentativeOffsets, h]

lemma tentativeOffsets_head (cs size fuel offset : Nat) (h : offset < size)
    (hf : size ≤ offset + fuel * cs) :
    ∃ e tl, tentativeOffsets cs fuel offset size = (offset, e) :: tl := by
  cases fuel with
  | zero => omega
  | succ f => exact ⟨_, _, tentativeOffsets_cons cs f offset size h⟩

lemma tentativeOffsets_chain (cs size : Nat) :
    ∀ fuel offset, size ≤ offset + fuel * cs →
      ∀ i, i + 1 < (tentativeOffsets cs fuel offset size).length →
        ((tentativeOffsets cs fuel offset size).getD i (0, 0)).2 =
          ((tentativeOffsets cs fuel offset size).getD (i + 1) (0, 0)).1 := by
  intro fuel
  induction fuel with
  | zero =>
    intro offset _ i hi
    simp [tentativeOffsets] at hi
  | succ fuel ih =>
    intro offset hf i hi
    by_cases h : offset < size
    · rw [tentativeOffsets_cons cs fuel offset size h] at hi ⊢
      have hmul : (fuel + 1) * cs = fuel * cs + cs := Nat.succ_mul fuel cs
      have hf' : size ≤ offset + cs + fuel * cs := by omega
      cases i with
      | zero =>
        simp only [List.length_cons] at hi
        have hne : tentativeOffsets cs fuel (offset + cs) size ≠ [] := by
          intro hcon
          rw [hcon] at hi
          simp at hi
        have hlt : offset + cs < size := by
          by_contra hge
          exact hne (tentativeOffsets_nil cs fuel (offset + cs) size hge)
        obtain ⟨e, tl, heq⟩ := tentativeOffsets_head cs size fuel (offset + cs) hlt hf'
        rw [heq]
        simp
        omega
      | succ i =>
        simp only [List.length_cons] at hi
        simp only [List.getD_cons_succ]
        exact ih (offset + cs) hf' i (by omega)
    · rw [tentativeOffsets_nil cs (fuel + 1) offset size h] at hi
      simp at hi

lemma tentativeOffsets_last (cs size : Nat) :
    ∀ fuel offset, size ≤ offset + fuel * cs → offset < size →
      ((tentativeOffsets cs fuel offset size).getD
        ((tentativeOffsets cs fuel offset size).length - 1) (0, 0)).2 = size := by
  intro fuel
  induction fuel with
  | zero => intro offset hf h; omega
  | succ fuel ih =>
    intro offset hf h
    rw [tentativeOffsets_cons cs fuel offset size h]
    have hmul : (fuel + 1) * cs = fuel * cs + cs := Nat.succ_mul fuel cs
    by_cases h2 : offset + cs < size
    · have hf' : size ≤ offset + cs + fuel * cs := by omega
      obtain ⟨e, tl, heq⟩ := tentativeOffsets_head cs size fuel (offset + cs) h2 hf'
      have hIH := ih (offset + cs) hf' h2
      rw [heq] at hIH ⊢
      simp only [List.length_cons] at hIH ⊢
      have e1 : tl.length + 1 - 1 = tl.length := by omega
      have e2 : tl.length + 1 + 1 - 1 = tl.length + 1 := by omega
      rw [e1] at hIH
      rw [e2, List.getD_cons_succ]
      exact hIH
    · rw [tentativeOffsets_nil cs fuel (offset + cs) size h2]
      simp
      omega

lemma applyDeltas_length (d : Nat → Nat) :
    ∀ (l : List (Nat × Nat)) (sh i : Nat), (applyDeltas d l sh i).length = l.length := by
  intro l
  induction l with
  | nil => intro sh i; rfl
  | cons x tl ih =>
    intro sh i
    cases tl with
    | nil => cases x; rfl
    | cons y tl2 =>
      cases x
      simp only [applyDeltas, List.length_cons]
      rw [ih]
      simp

lemma applyDeltas_getD (d : Nat → Nat) :
    ∀ (l : List (Nat × Nat)) (sh i j : Nat), j < l.length →
      (applyDeltas d l sh i).getD j (0, 0) =
        ((l.getD j (0, 0)).1 + (if j = 0 then sh else d (i + j - 1)),
         (l.getD j (0, 0)).2 + (if j + 1 < l.length then d (i + j) else 0)) := by
  intro l
  induction l with
  | nil => intro sh i j hj; simp at hj
  | cons x tl ih =>
    intro sh i j hj
    cases tl with
    | nil =>
      cases x with
      | mk s e =>
        cases j with
        | zero => simp [applyDeltas]
        | succ j => simp at hj
    | cons y tl2 =>
      cases x with
      | mk s e =>
        cases j with
        | zero =>
          simp [applyDeltas]
        | succ j =>
          have hj' : j < (y :: tl2).length := by simpa using hj
          simp only [applyDeltas, List.getD_cons_succ]
          rw [ih (d i) (i + 1) j hj']
          simp only [Prod.mk.injEq]
          constructor
          · rw [if_neg (by omega : ¬(j + 1 = 0))]
            cases j with
            | zero => simp
            | succ j =>
              rw [if_neg (by omega : ¬(j + 1 = 0))]
              congr 2
              omega
          · simp only [List.length_cons]
            by_cases hc : j + 1 < tl2.length + 1
            · rw [if_pos hc, if_pos (by omega : j + 1 + 1 < tl2.length + 1 + 1)]
              congr 2
              omega
            · rw [if_neg hc, if_neg (by omega : ¬(j + 1 + 1 < tl2.length + 1 + 1))]

lemma applyDeltas_ext (d d' : Nat → Nat) :
    ∀ (l : List (Nat × Nat)) (sh i : Nat),
      (∀ b, i ≤ b → b + 1 < i + l.length → d b = d' b) →
      applyDeltas d l sh i = applyDeltas d' l sh i := by
  intro l
  induction l with
  | nil => intro sh i _; rfl
  | cons x tl ih =>
    intro sh i hb
    cases tl with
    | nil => cases x; rfl
    | cons y tl2 =>
      cases x with
      | mk s e =>
        have hdi : d i = d' i := hb i (le_refl i) (by simp [List.length_cons])
        simp only [applyDeltas]
        rw [hdi]
        congr 1
        exact ih (d' i) (i + 1) (fun b h1 h2 => hb b (by omega) (by simp at h2 ⊢; omega))

/-- Claim C5: for chunkSize ≥ 1 and start < file.size, `sliceFile` partitions
`[start, size)` into windows of `chunkSize` bytes (last clipped to `size`),
dispatches one boundary-scan task per boundary except the last end (the
result depends on `d i` only for boundaries `i` with `i + 1 <` chunk count),
applies each reported offset `d i` equally to the end of chunk `i` and the
start of chunk `i + 1`, and the returned chunk list is contiguous, begins at
`start`, and ends at `size`. -/
theorem sliceFile_spec (size start chunkSize : Nat) (d : Nat → Nat)
    (hcs : 1 ≤ chunkSize) (hlt : start < size) :
    sliceFile size start chunkSize d ≠ [] ∧
    ((sliceFile size start chunkSize d).getD 0 (0, 0)).1 = start ∧
    (∀ i, i + 1 < (sliceFile size start chunkSize d).length →
      ((sliceFile size start chunkSize d).getD i (0, 0)).2 =
        ((sliceFile size start chunkSize d).getD (i + 1) (0, 0)).1) ∧
    ((sliceFile size start chunkSize d).getD
        ((sliceFile size start chunkSize d).length - 1) (0, 0)).2 = size ∧
    (∀ i, i + 1 < (sliceFile size start chunkSize d).length →
      ((sliceFile size start chunkSize d).getD i (0, 0)).2 =
        ((tentativeOffsets chunkSize size start size).getD i (0, 0)).2 + d i ∧
      ((sliceFile size start chunkSize d).getD (i + 1) (0, 0)).1 =
        ((tentativeOffsets chunkSize size start size).getD (i + 1) (0, 0)).1 + d i) ∧
    (∀ d' : Nat → Nat, (∀ i, i + 1 < (sliceFile size start chunkSize d).length → d i = d' i) →
      sliceFile size start chunkSize d' = sliceFile size start chunkSize d) := by
  have hfuel : size ≤ start + size * chunkSize := by
    have : size ≤ size * chunkSize := Nat.le_mul_of_pos_right size hcs
    omega
  obtain ⟨e0, tl0, hhead⟩ := tentativeOffsets_head chunkSize size size start hlt hfuel
  set T := tentativeOffsets chunkSize size start size with hT
  have hTne : T ≠ [] := by rw [hhead]; simp
  have hTlen : 0 < T.length := List.length_pos.mpr hTne
  have hlen : (sliceFile size start chunkSize d).length = T.length := by
    unfold sliceFile
    exact applyDeltas_length d T 0 0
  have hne : sliceFile size start chunkSize d ≠ [] := by
    intro hcon
    rw [hcon] at hlen
    simp at hlen
    omega
  have hgetD : ∀ j, j < T.length →
      (sliceFile size start chunkSize d).getD j (0, 0) =
        ((T.getD j (0, 0)).1 + (if j = 0 then 0 else d (0 + j - 1)),
         (T.getD j (0, 0)).2 + (if j + 1 < T.length then d (0 + j) else 0)) := by
    intro j hj
    unfold sliceFile
    exact applyDeltas_getD d T 0 0 j hj
  have hchainT := tentativeOffsets_chain chunkSize size size start hfuel
  have hlastT := tentativeOffsets_last chunkSize size size start hfuel hlt
  refine ⟨hne, ?_, ?_, ?_, ?_, ?_⟩
  · rw [hgetD 0 hTlen, hhead]
    simp
  · intro i hi
    rw [hlen] at hi
    have hi0 : i < T.length := by omega
    rw [hgetD i hi0, hgetD (i + 1) hi]
    simp only
    rw [hchainT i hi]
    have h1 : (if i + 1 < T.length then d (0 + i) else 0) = d i := by
      simp [hi]
    have h2 : (if i + 1 = 0 then 0 else d (0 + (i + 1) - 1)) = d i := by
      simp
    rw [h1, h2]
  · rw [hlen]
    have hl1 : T.length - 1 < T.length := by omega
    rw [hgetD (T.length - 1) hl1]
    simp only
    have : ¬ (T.length - 1 + 1 < T.length) := by omega
    rw [if_neg this]
    rw [hlastT]
    omega
  · intro i hi
    rw [hlen] at hi
    have hi0 : i < T.length := by omega
    rw [hgetD i hi0, hgetD (i + 1) hi]
    constructor
    · simp [hi]
    · simp
  · intro d' hd'
    unfold sliceFile
    refine (applyDeltas_ext d d' T 0 0 ?_).symm
    intro b h1 h2
    refine hd' b ?_
    rw [hlen]
    omega

/-- Witness for claim C5 at a concrete instance (size 5, start 0,
chunkSize 2, every boundary scan reporting offset 1). -/
theorem sliceFile_spec_witness :
    (1 ≤ 2 ∧ 0 < 5) ∧
    (sliceFile 5 0 2 (fun _ => 1) ≠ [] ∧
      ((sliceFile 5 0 2 (fun _ => 1)).getD 0 (0, 0)).1 = 0 ∧
      (∀ i, i + 1 < (sliceFile 5 0 2 (fun _ => 1)).length →
        ((sliceFile 5 0 2 (fun _ => 1)).getD i (0, 0)).2 =
          ((sliceFile 5 0 2 (fun _ => 1)).getD (i + 1) (0, 0)).1) ∧
      ((sliceFile 5 0 2 (fun _ => 1)).getD
          ((sliceFile 5 0 2 (fun _ => 1)).length - 1) (0, 0)).2 = 5 ∧
      (∀ i, i + 1 < (sliceFile 5 0 2 (fun _ => 1)).length →
        ((sliceFile 5 0 2 (fun _ => 1)).getD i (0, 0)).2 =
          ((tentativeOffsets 2 5 0 5).getD i (0, 0)).2 + 1 ∧
        ((sliceFile 5 0 2 (fun _ => 1)).getD (i + 1) (0, 0)).1 =
          ((tentativeOffsets 2 5 0 5).getD (i + 1) (0, 0)).1 + 1) ∧
      (∀ d' : Nat → Nat,
        (∀ i, i + 1 < (sliceFile 5 0 2 (fun _ => 1)).length → 1 = d' i) →
        sliceFile 5 0 2 d' = sliceFile 5 0 2 (fun _ => 1))) :=
  ⟨⟨by decide, by decide⟩, sliceFile_spec 5 0 2 (fun _ => 1) (by decide) (by decide)⟩

lemma readRowScan_spec (view : List Nat) (cfg : Config) :
    ∀ rem i fo q res w, rem = view.length - i → i ≤ view.length → fo ≤ i →
      ((readRowScan view cfg rem i fo q res w).exitFieldOffset = none →
        ∃ j, i ≤ j ∧ j < view.length ∧ view.getD j 0 = cfg.linebreak ∧
          (readRowScan view cfg rem i fo q res w).offset = j + 1) ∧
      (∀ fo2, (readRowScan view cfg rem i fo q res w).exitFieldOffset = some fo2 →
        (readRowScan view cfg rem i fo q res w).offset = view.length ∧ fo2 ≤ view.length) := by
  intro rem
  induction rem with
  | zero =>
    intro i fo q res w hrem hi hfo
    constructor
    · intro hnone
      simp [readRowScan] at hnone
    · intro fo2 hsome
      simp [readRowScan] at hsome ⊢
      omega
  | succ rem ih =>
    intro i fo q res w hrem hi hfo
    have hilt : i < view.length := by omega
    have hrem' : rem = view.length - (i + 1) := by omega
    have weaken : ∀ fo2 q2 res2 w2, fo2 ≤ i + 1 →
        (((readRowScan view cfg rem (i + 1) fo2 q2 res2 w2).exitFieldOffset = none →
          ∃ j, i ≤ j ∧ j < view.length ∧ view.getD j 0 = cfg.linebreak ∧
            (readRowScan view cfg rem (i + 1) fo2 q2 res2 w2).offset = j + 1) ∧
        (∀ fo3, (readRowScan view cfg rem (i + 1) fo2 q2 res2 w2).exitFieldOffset = some fo3 →
          (readRowScan view cfg rem (i + 1) fo2 q2 res2 w2).offset = view.length ∧
            fo3 ≤ view.length)) := by
      intro fo2 q2 res2 w2 hfo2
      obtain ⟨ha, hb⟩ := ih (i + 1) fo2 q2 res2 w2 hrem' (by omega) hfo2
      refine ⟨?_, hb⟩
      intro hnone
      obtain ⟨j, hj1, hj2, hj3, hj4⟩ := ha hnone
      exact ⟨j, by omega, hj2, hj3, hj4⟩
    simp only [readRowScan]
    split_ifs with h1 h2 h3 h4 h5 h6
    · exact weaken fo true res w (by omega)
    · exact weaken fo q res w (by omega)
    · exact weaken fo false res w (by omega)
    · exact weaken fo q res (w + 1) (by omega)
    · exact weaken (i + 1) q (res ++ [(fo, i - fo)]) w (by omega)
    · first
        | exact weaken fo q res w (by omega)
        | exact ⟨fun _ => ⟨i, le_refl i, hilt, h6.1, rfl⟩,
            fun fo2 hsome => by first | exact hsome.elim | simp at hsome⟩
    · first
        | exact weaken fo q res w (by omega)
        | exact ⟨fun _ => ⟨i, le_refl i, hilt, h6.1, rfl⟩,
            fun fo2 hsome => by first | exact hsome.elim | simp at hsome⟩
    · first
        | exact weaken fo q res w (by omega)
        | exact ⟨fun _ => ⟨i, le_refl i, hilt, h6.1, rfl⟩,
            fun fo2 hsome => by first | exact hsome.elim | simp at hsome⟩

/-- Claim C9: `readRow` returns the offset just past the consumed row's
terminating line-break (a position `j + 1` with a line-break byte at `j`,
scanned outside quotes), or the end of the view when the scan finds no
terminating line-break; in the latter case the trailing field
`(fo, view.length - fo)` — `fo` being the final value of the source's
`fieldOffset` variable — is pushed after the scanned fields if and only if
its byte length `view.length - fo` is non-zero. -/
theorem readRow_offset_spec (view : List Nat) (offset : Nat) (cfg : Config)
    (h : offset ≤ view.length) :
    ((readRowScan view cfg (view.length - offset) offset offset false [] 0).exitFieldOffset =
        none →
      ∃ j, offset ≤ j ∧ j < view.length ∧ view.getD j 0 = cfg.linebreak ∧
        (readRow view offset cfg).offset = j + 1 ∧
        (readRow view offset cfg).fields =
          (readRowScan view cfg (view.length - offset) offset offset false [] 0).fields) ∧
    (∀ fo, (readRowScan view cfg (view.length - offset) offset offset false [] 0).exitFieldOffset =
        some fo →
      (readRow view offset cfg).offset = view.length ∧
      (fo < view.length →
        (readRow view offset cfg).fields =
          (readRowScan view cfg (view.length - offset) offset offset false [] 0).fields ++
            [(fo, view.length - fo)]) ∧
      (fo = view.length →
        (readRow view offset cfg).fields =
          (readRowScan view cfg (view.length - offset) offset offset false [] 0).fields)) := by
  have hspec := readRowScan_spec view cfg (view.length - offset) offset offset false [] 0 rfl h
    (le_refl offset)
  constructor
  · intro hnone
    obtain ⟨j, hj1, hj2, hj3, hj4⟩ := hspec.1 hnone
    have hfin : readRow view offset cfg =
        ⟨(readRowScan view cfg (view.length - offset) offset offset false [] 0).fields,
         (readRowScan view cfg (view.length - offset) offset offset false [] 0).offset,
         (readRowScan view cfg (view.length - offset) offset offset false [] 0).warnings⟩ := by
      unfold readRow readRowFinish
      rw [hnone]
    exact ⟨j, hj1, hj2, hj3, by rw [hfin]; exact hj4, by rw [hfin]⟩
  · intro fo hsome
    obtain ⟨hoff, hle⟩ := hspec.2 fo hsome
    refine ⟨?_, ?_, ?_⟩
    · unfold readRow readRowFinish
      rw [hsome]
      simp only
      split_ifs <;> exact hoff
    · intro hlt
      unfold readRow readRowFinish
      rw [hsome]
      simp only
      rw [if_pos (by omega : fo < (readRowScan view cfg (view.length - offset) offset offset
        false [] 0).offset)]
      rw [hoff]
    · intro heq
      unfold readRow readRowFinish
      rw [hsome]
      simp only
      rw [if_neg (by omega : ¬ fo < (readRowScan view cfg (view.length - offset) offset offset
        false [] 0).offset)]

/-- Witness for claim C9 on the view `a,b` (no line-break): the scan exits
at view end with `fieldOffset = 2`, the returned offset is the view length,
and the non-empty trailing field `(2, 1)` is pushed. -/
theorem readRow_offset_spec_witness :
    (readRowScan [97, 44, 98] defaultConfig (([97, 44, 98] : List Nat).length - 0) 0 0
        false [] 0).exitFieldOffset = some 2 ∧
    (readRow [97, 44, 98] 0 defaultConfig).offset = 3 ∧
    (readRow [97, 44, 98] 0 defaultConfig).fields = [(0, 1), (2, 1)] := by
  have h := (readRow_offset_spec [97, 44, 98] 0 defaultConfig (by decide)).2 2 (by decide)
  refine ⟨by decide, h.1, ?_⟩
  rw [h.2.1 (by decide)]
  decide

lemma makeHeader_length (cfg : Config) (view : List Nat) :
    ∀ (fields : List (Nat × Nat)) (i : Nat),
      (makeHeader cfg view i fields).length = fields.length := by
  intro fields
  induction fields with
  | nil => intro i; rfl
  | cons f rest ih =>
    intro i
    cases f
    simp only [makeHeader, List.length_cons]
    rw [ih]

lemma makeHeader_getD (cfg : Config) (view : List Nat) :
    ∀ (fields : List (Nat × Nat)) (i k : Nat), k < fields.length →
      (makeHeader cfg view i fields).getD k ⟨[], 0, 0, 0, 0, 0, 0⟩ =
        { name := if cfg.firstRowHeader then
              cleanValue cfg.qualifier
                ((view.drop (fields.getD k (0, 0)).1).take (fields.getD k (0, 0)).2)
            else columnName (i + k),
          minLength := maxSafeInteger, maxLength := minSafeInteger,
          emptyCount := 0, stringCount := 0, intCount := 0, floatCount := 0 } := by
  intro fields
  induction fields with
  | nil => intro i k hk; simp at hk
  | cons f rest ih =>
    intro i k hk
    cases f with
    | mk fo len =>
      cases k with
      | zero => simp [makeHeader]
      | succ k =>
        have hk' : k < rest.length := by simpa using hk
        simp only [makeHeader, List.getD_cons_succ]
        rw [ih (i + 1) k hk']
        have : i + 1 + k = i + (k + 1) := by omega
        rw [this]

/-- Claim C10: `readHeader` creates one `ColumnStat` per field of the first
row of the (clipped) view, each initialized with zero counters and the
sentinel `minLength`/`maxLength`; when `firstRowHeader` is false the names
are `Column0`, `Column1`, … and the returned offset is `0`, while when it is
true the names are the field bytes trimmed and stripped of one surrounding
qualifier pair, and the returned offset is the offset just past the first
row returned by `readRow`. -/
theorem readHeader_spec (file : List Nat) (cfg : Config) :
    (readHeader file cfg).1.length =
      (readRow (file.take (min cfg.maxRowSize file.length)) 0 cfg).fields.length ∧
    (∀ k, k < (readHeader file cfg).1.length →
      (readHeader file cfg).1.getD k ⟨[], 0, 0, 0, 0, 0, 0⟩ =
        { name := if cfg.firstRowHeader then
              cleanValue cfg.qualifier
                (((file.take (min cfg.maxRowSize file.length)).drop
                    ((readRow (file.take (min cfg.maxRowSize file.length)) 0 cfg).fields.getD
                      k (0, 0)).1).take
                  ((readRow (file.take (min cfg.maxRowSize file.length)) 0 cfg).fields.getD
                    k (0, 0)).2)
            else columnName k,
          minLength := maxSafeInteger, maxLength := minSafeInteger,
          emptyCount := 0, stringCount := 0, intCount := 0, floatCount := 0 }) ∧
    (readHeader file cfg).2 =
      (if cfg.firstRowHeader then
        (readRow (file.take (min cfg.maxRowSize file.length)) 0 cfg).offset
      else 0) := by
  refine ⟨?_, ?_, ?_⟩
  · unfold readHeader
    exact makeHeader_length cfg _ _ 0
  · intro k hk
    unfold readHeader at hk ⊢
    simp only at hk ⊢
    rw [makeHeader_length] at hk
    rw [makeHeader_getD cfg _ _ 0 k hk]
    simp
  · rfl

/-- Witness for claim C10 on the file bytes of `a,"b"\nx` under the default
configuration (`firstRowHeader = true`): two columns named `a` and `b` (the
second stripped of its qualifier pair), sentinel-initialized, and offset 6
(just past the first row's line-break). -/
theorem readHeader_spec_witness :
    (readHeader [97, 44, 34, 98, 34, 10, 120] defaultConfig).1.length =
      (readRow (([97, 44, 34, 98, 34, 10, 120] : List Nat).take
        (min defaultConfig.maxRowSize ([97, 44, 34, 98, 34, 10, 120] : List Nat).length))
        0 defaultConfig).fields.length ∧
    (readHeader [97, 44, 34, 98, 34, 10, 120] defaultConfig).1.getD 1 ⟨[], 0, 0, 0, 0, 0, 0⟩ =
      { name := [98], minLength := maxSafeInteger, maxLength := minSafeInteger,
        emptyCount := 0, stringCount := 0, intCount := 0, floatCount := 0 } ∧
    (readHeader [97, 44, 34, 98, 34, 10, 120] defaultConfig).2 = 6 := by
  have h := readHeader_spec [97, 44, 34, 98, 34, 10, 120] defaultConfig
  refine ⟨h.1, ?_, ?_⟩
  · rw [h.2.1 1 (by decide)]
    decide
  · rw [h.2.2]
    decide

lemma getD_set_self {α : Type} : ∀ (l : List α) (i : Nat) (a d : α), i < l.length →
    (l.set i a).getD i d = a := by
  intro l
  induction l with
  | nil => intro i a d h; simp at h
  | cons x tl ih =>
    intro i a d h
    cases i with
    | zero => rfl
    | succ i =>
      have h' : i < tl.length := by simpa using h
      simpa using ih i a d h'

lemma getD_set_ne {α : Type} : ∀ (l : List α) (i j : Nat) (a d : α), i ≠ j →
    (l.set i a).getD j d = l.getD j d := by
  intro l
  induction l with
  | nil => intro i j a d h; rfl
  | cons x tl ih =>
    intro i j a d h
    cases i with
    | zero =>
      cases j with
      | zero => exact absurd rfl h
      | succ j => rfl
    | succ i =>
      cases j with
      | zero => rfl
      | succ j => simpa using ih i j a d (by omega)

lemma set_oob {α : Type} : ∀ (l : List α) (i : Nat) (a : α), l.length ≤ i → l.set i a = l := by
  intro l
  induction l with
  | nil => intro i a _; cases i <;> rfl
  | cons x tl ih =>
    intro i a h
    cases i with
    | zero => simp at h
    | succ i => simpa using ih i a (by simpa using h)

lemma initColumns_length (types : List Nat) :
    ∀ (names : List (List Nat)) (i : Nat), (initColumns types i names).length = names.length := by
  intro names
  induction names with
  | nil => intro i; rfl
  | cons nm rest ih => intro i; simpa [initColumns] using ih (i + 1)

lemma initColumns_getD (types : List Nat) :
    ∀ (names : List (List Nat)) (i k : Nat), k < names.length →
      (initColumns types i names).getD k ⟨[], 0, 0, 0⟩ =
        ⟨names.getD k [], 0, 0, types.getD (i + k) 0⟩ := by
  intro names
  induction names with
  | nil => intro i k hk; simp at hk
  | cons nm rest ih =>
    intro i k hk
    cases k with
    | zero => simp [initColumns]
    | succ k =>
      have hk' : k < rest.length := by simpa using hk
      simp only [initColumns, List.getD_cons_succ]
      rw [ih (i + 1) k hk']
      have : i + 1 + k = i + (k + 1) := by omega
      rw [this]

lemma updateLengths_length : ∀ (cols : List BinaryColumn) (ls : List Nat),
    (updateLengths cols ls).length = cols.length := by
  intro cols
  induction cols with
  | nil => intro ls; cases ls <;> rfl
  | cons c cs ih =>
    intro ls
    cases ls with
    | nil => rfl
    | cons l ls => simpa [updateLengths] using ih ls

lemma updateLengths_getD : ∀ (cols : List BinaryColumn) (ls : List Nat) (k : Nat)
    (d : BinaryColumn),
    (updateLengths cols ls).getD k d =
      if k < cols.length ∧ k < ls.length then
        { cols.getD k d with length := max (cols.getD k d).length (ls.getD k 0) }
      else cols.getD k d := by
  intro cols
  induction cols with
  | nil =>
    intro ls k d
    cases ls <;> simp [updateLengths]
  | cons c cs ih =>
    intro ls k d
    cases ls with
    | nil => simp [updateLengths]
    | cons l ls =>
      cases k with
      | zero => simp [updateLengths]
      | succ k =>
        simp only [updateLengths, List.getD_cons_succ]
        rw [ih ls k d]
        by_cases h : k < cs.length ∧ k < ls.length
        · rw [if_pos h, if_pos (by simp; omega)]
        · rw [if_neg h, if_neg (by simp; omega)]

lemma foldWidths_aux_length : ∀ (results : List BinParseResult) (cols : List BinaryColumn)
    (a : Nat), (results.foldl foldWidthStep (cols, a)).1.length = cols.length := by
  intro results
  induction results with
  | nil => intro cols a; rfl
  | cons r rs ih =>
    intro cols a
    simp only [List.foldl_cons, foldWidthStep]
    rw [ih]
    exact updateLengths_length cols r.header.lengths

lemma foldWidths_aux_snd : ∀ (results : List BinParseResult) (cols : List BinaryColumn)
    (a : Nat), (results.foldl foldWidthStep (cols, a)).2 =
      a + (results.map (fun r => r.header.rowCount)).sum := by
  intro results
  induction results with
  | nil => intro cols a; simp
  | cons r rs ih =>
    intro cols a
    simp only [List.foldl_cons, foldWidthStep, List.map_cons, List.sum_cons]
    rw [ih]
    omega

lemma foldWidths_aux_getD : ∀ (results : List BinParseResult) (cols : List BinaryColumn)
    (a k : Nat) (d : BinaryColumn), k < cols.length →
    (∀ r ∈ results, k < r.header.lengths.length) →
    (results.foldl foldWidthStep (cols, a)).1.getD k d =
      { cols.getD k d with
        length := results.foldl (fun acc r => max acc (r.header.lengths.getD k 0))
          (cols.getD k d).length } := by
  intro results
  induction results with
  | nil => intro cols a k d hk _; simp
  | cons r rs ih =>
    intro cols a k d hk hlen
    simp only [List.foldl_cons, foldWidthStep]
    have hk2 : k < (updateLengths cols r.header.lengths).length := by
      rw [updateLengths_length]; exact hk
    rw [ih (updateLengths cols r.header.lengths) (a + r.header.rowCount) k d hk2
      (fun r2 hr2 => hlen r2 (List.mem_cons_of_mem r hr2))]
    rw [updateLengths_getD cols r.header.lengths k d,
      if_pos ⟨hk, hlen r (List.mem_cons_self r rs)⟩]

lemma set_offset_fields (cols : List BinaryColumn) (oi off oj : Nat) :
    (((cols.set oi { cols.getD oi ⟨[], 0, 0, 0⟩ with offset := off }).getD oj
        ⟨[], 0, 0, 0⟩).length = (cols.getD oj ⟨[], 0, 0, 0⟩).length) ∧
    (((cols.set oi { cols.getD oi ⟨[], 0, 0, 0⟩ with offset := off }).getD oj
        ⟨[], 0, 0, 0⟩).name = (cols.getD oj ⟨[], 0, 0, 0⟩).name) ∧
    (((cols.set oi { cols.getD oi ⟨[], 0, 0, 0⟩ with offset := off }).getD oj
        ⟨[], 0, 0, 0⟩).type = (cols.getD oj ⟨[], 0, 0, 0⟩).type) := by
  by_cases hij : oi = oj
  · subst hij
    by_cases hlt : oi < cols.length
    · rw [getD_set_self cols oi _ _ hlt]
      exact ⟨rfl, rfl, rfl⟩
    · rw [set_oob cols oi _ (by omega)]
      exact ⟨rfl, rfl, rfl⟩
  · rw [getD_set_ne cols oi oj _ _ hij]
    exact ⟨rfl, rfl, rfl⟩

lemma assignOffsets_fst_length : ∀ (order : List Nat) (cols : List BinaryColumn) (off : Nat),
    (assignOffsets order cols off).1.length = cols.length := by
  intro order
  induction order with
  | nil => intro cols off; rfl
  | cons oi rest ih =>
    intro cols off
    simp only [assignOffsets]
    rw [ih]
    exact List.length_set cols oi _

lemma assignOffsets_fields : ∀ (order : List Nat) (cols : List BinaryColumn) (off oj : Nat),
    (((assignOffsets order cols off).1.getD oj ⟨[], 0, 0, 0⟩).length =
      (cols.getD oj ⟨[], 0, 0, 0⟩).length) ∧
    (((assignOffsets order cols off).1.getD oj ⟨[], 0, 0, 0⟩).name =
      (cols.getD oj ⟨[], 0, 0, 0⟩).name) ∧
    (((assignOffsets order cols off).1.getD oj ⟨[], 0, 0, 0⟩).type =
      (cols.getD oj ⟨[], 0, 0, 0⟩).type) := by
  intro order
  induction order with
  | nil => intro cols off oj; exact ⟨rfl, rfl, rfl⟩
  | cons oi rest ih =>
    intro cols off oj
    simp only [assignOffsets]
    obtain ⟨h1, h2, h3⟩ := ih (cols.set oi { cols.getD oi ⟨[], 0, 0, 0⟩ with offset := off })
      (off + (cols.getD oi ⟨[], 0, 0, 0⟩).length) oj
    obtain ⟨g1, g2, g3⟩ := set_offset_fields cols oi off oj
    exact ⟨h1.trans g1, h2.trans g2, h3.trans g3⟩

lemma assignOffsets_snd : ∀ (order : List Nat) (cols : List BinaryColumn) (off : Nat),
    (assignOffsets order cols off).2 =
      off + (order.map (fun oi => (cols.getD oi ⟨[], 0, 0, 0⟩).length)).sum := by
  intro order
  induction order with
  | nil => intro cols off; simp [assignOffsets]
  | cons oi rest ih =>
    intro order off
    simp only [assignOffsets, List.map_cons, List.sum_cons]
    rw [ih]
    have hmap : (rest.map (fun oj =>
        (((order.set oi { order.getD oi ⟨[], 0, 0, 0⟩ with offset := off }).getD oj
          ⟨[], 0, 0, 0⟩)).length)) =
        rest.map (fun oj => ((order.getD oj ⟨[], 0, 0, 0⟩)).length) := by
      refine List.map_congr_left ?_
      intro oj _
      exact (set_offset_fields order oi off oj).1
    rw [hmap]
    omega

lemma assignOffsets_unassigned : ∀ (order : List Nat) (cols : List BinaryColumn) (off oj : Nat),
    oj ∉ order →
    (assignOffsets order cols off).1.getD oj ⟨[], 0, 0, 0⟩ = cols.getD oj ⟨[], 0, 0, 0⟩ := by
  intro order
  induction order with
  | nil => intro cols off oj _; rfl
  | cons oi rest ih =>
    intro cols off oj hnm
    have hne : oi ≠ oj := fun hcon => hnm (hcon ▸ List.mem_cons_self oi rest)
    have hnm' : oj ∉ rest := fun hcon => hnm (List.mem_cons_of_mem oi hcon)
    simp only [assignOffsets]
    rw [ih _ _ oj hnm']
    exact getD_set_ne cols oi oj _ _ hne

lemma assignOffsets_offset : ∀ (order : List Nat) (cols : List BinaryColumn) (off idx : Nat),
    order.Nodup → (∀ oi ∈ order, oi < cols.length) → idx < order.length →
    ((assignOffsets order cols off).1.getD (order.getD idx 0) ⟨[], 0, 0, 0⟩).offset =
      off + ((order.take idx).map (fun oi => (cols.getD oi ⟨[], 0, 0, 0⟩).length)).sum := by
  intro order
  induction order with
  | nil => intro cols off idx _ _ h; simp at h
  | cons oi rest ih =>
    intro cols off idx hnd hbound hidx
    have hoi : oi < cols.length := hbound oi (List.mem_cons_self oi rest)
    have hnm : oi ∉ rest := (List.nodup_cons.mp hnd).1
    cases idx with
    | zero =>
      simp only [assignOffsets, List.getD_cons_zero, List.take_zero, List.map_nil,
        List.sum_nil, Nat.add_zero]
      rw [assignOffsets_unassigned rest _ _ oi hnm]
      rw [getD_set_self cols oi _ _ hoi]
    | succ idx =>
      have hidx' : idx < rest.length := by simpa using hidx
      simp only [assignOffsets, List.getD_cons_succ]
      rw [ih (cols.set oi { cols.getD oi ⟨[], 0, 0, 0⟩ with offset := off })
        (off + (cols.getD oi ⟨[], 0, 0, 0⟩).length) idx (List.nodup_cons.mp hnd).2
        (fun o ho => by rw [List.length_set]; exact hbound o (List.mem_cons_of_mem oi ho))
        hidx']
      have hmap : ((rest.take idx).map (fun oj =>
          (((cols.set oi { cols.getD oi ⟨[], 0, 0, 0⟩ with offset := off }).getD oj
            ⟨[], 0, 0, 0⟩)).length)) =
          (rest.take idx).map (fun oj => ((cols.getD oj ⟨[], 0, 0, 0⟩)).length) := by
        refine List.map_congr_left ?_
        intro oj _
        exact (set_offset_fields cols oi off oj).1
      rw [hmap]
      simp only [List.take_succ_cons, List.map_cons, List.sum_cons]
      omega

lemma range_map_getD {α : Type} : ∀ (l : List α) (d : α),
    (List.range l.length).map (fun i => l.getD i d) = l := by
  intro l
  induction l with
  | nil => intro d; rfl
  | cons x tl ih =>
    intro d
    rw [List.length_cons, List.range_succ_eq_map]
    simp only [List.map_cons, List.getD_cons_zero, List.map_map]
    congr 1
    have : ((fun i => (x :: tl).getD i d) ∘ Nat.succ) = fun i => tl.getD i d := by
      funext i
      simp
    rw [this]
    exact ih d

/-- Claim C4: after `binaryChunksFromBlobs` folds all per-chunk results
(nonempty, with full-width `lengths` vectors and the first result's `order`
a permutation of the column indices), the `BinaryHeader` satisfies: each
column's width is the `max`-fold of that column's observed widths over all
chunks; `rowLength` is the sum of all column widths; `dataLength` is
`rowLength * rowCount` with `rowCount` the sum of the per-chunk row counts;
the offset of the column at packing position `i` of the first result's
order is the accumulated width of the packing positions before it; and each
column's type tag is the first result's determination. -/
theorem binaryChunksFold_spec (names : List (List Nat)) (results : List BinParseResult)
    (r0 : BinParseResult) (rest : List BinParseResult) (hres : results = r0 :: rest)
    (hord : r0.header.order.Perm (List.range names.length))
    (hlen : ∀ r ∈ results, r.header.lengths.length = names.length) :
    (binaryChunksFold names results).columns.length = names.length ∧
    (∀ k, k < names.length →
      ((binaryChunksFold names results).columns.getD k ⟨[], 0, 0, 0⟩).length =
        results.foldl (fun acc r => max acc (r.header.lengths.getD k 0)) 0) ∧
    (binaryChunksFold names results).rowCount =
      (results.map (fun r => r.header.rowCount)).sum ∧
    (binaryChunksFold names results).rowLength =
      ((binaryChunksFold names results).columns.map (fun c => c.length)).sum ∧
    (binaryChunksFold names results).dataLength =
      (binaryChunksFold names results).rowLength * (binaryChunksFold names results).rowCount ∧
    (∀ i, i < names.length →
      ((binaryChunksFold names results).columns.getD (r0.header.order.getD i 0)
          ⟨[], 0, 0, 0⟩).offset =
        ((r0.header.order.take i).map (fun oi =>
          ((binaryChunksFold names results).columns.getD oi ⟨[], 0, 0, 0⟩).length)).sum) ∧
    (∀ k, k < names.length →
      ((binaryChunksFold names results).columns.getD k ⟨[], 0, 0, 0⟩).type =
        r0.header.types.getD k 0) := by
  subst hres
  simp only [binaryChunksFold]
  set junk : BinaryColumn := ⟨[], 0, 0, 0⟩ with hjunk
  set n := names.length with hn
  set cols0 := initColumns r0.header.types 0 names with hcols0
  set folded := foldWidths cols0 (r0 :: rest) with hfolded
  set assigned := assignOffsets r0.header.order folded.1 0 with hassigned
  have hc0len : cols0.length = n := initColumns_length r0.header.types names 0
  have hc1len : folded.1.length = n := by
    rw [hfolded]
    unfold foldWidths
    rw [foldWidths_aux_length]
    exact hc0len
  have hclen : assigned.1.length = n := by
    rw [hassigned, assignOffsets_fst_length]
    exact hc1len
  have hordlen : r0.header.order.length = n := by
    have := hord.length_eq
    simpa using this
  have hordnd : r0.header.order.Nodup := hord.nodup_iff.mpr (List.nodup_range n)
  have hordmem : ∀ oi ∈ r0.header.order, oi < n := by
    intro oi hoi
    have := hord.mem_iff.mp hoi
    simpa using this
  have hwidth : ∀ k, k < n →
      (folded.1.getD k junk).length =
        (r0 :: rest).foldl (fun acc r => max acc (r.header.lengths.getD k 0)) 0 := by
    intro k hk
    rw [hfolded]
    unfold foldWidths
    rw [foldWidths_aux_getD (r0 :: rest) cols0 0 k junk (by omega)
      (fun r hr => by rw [hlen r hr]; exact hk)]
    have h0 : (cols0.getD k junk).length = 0 := by
      rw [hcols0, initColumns_getD r0.header.types names 0 k (by omega)]
    simp only [h0]
  have htype : ∀ k, k < n →
      (folded.1.getD k junk).type = r0.header.types.getD k 0 := by
    intro k hk
    rw [hfolded]
    unfold foldWidths
    rw [foldWidths_aux_getD (r0 :: rest) cols0 0 k junk (by omega)
      (fun r hr => by rw [hlen r hr]; exact hk)]
    rw [hcols0, initColumns_getD r0.header.types names 0 k (by omega)]
    simp
  refine ⟨hclen, ?_, ?_, ?_, by trivial, ?_, ?_⟩
  · intro k hk
    rw [(assignOffsets_fields r0.header.order folded.1 0 k).1]
    exact hwidth k hk
  · rw [hfolded]
    unfold foldWidths
    rw [foldWidths_aux_snd]
    omega
  · rw [hassigned, assignOffsets_snd]
    have hperm := (hord.map fun oi => (folded.1.getD oi junk).length).sum_eq
    rw [Nat.zero_add, hperm]
    have hrange : ((List.range n).map fun oi => (folded.1.getD oi junk).length).sum =
        ((List.range n).map fun oi => (assigned.1.getD oi junk).length).sum := by
      congr 1
      refine List.map_congr_left ?_
      intro oi _
      exact ((assignOffsets_fields r0.header.order folded.1 0 oi).1).symm
    rw [hrange]
    have : (List.range n).map (fun oi => (assigned.1.getD oi junk).length) =
        ((List.range assigned.1.length).map fun oi => assigned.1.getD oi junk).map
          (fun c => c.length) := by
      rw [hclen, List.map_map]
      rfl
    rw [this, range_map_getD]
  · intro i hi
    rw [hassigned, assignOffsets_offset r0.header.order folded.1 0 i hordnd
      (fun oi hoi => by rw [hc1len]; exact hordmem oi hoi) (by omega)]
    rw [Nat.zero_add]
    congr 1
    refine List.map_congr_left ?_
    intro oi hoi
    exact ((assignOffsets_fields r0.header.order folded.1 0 oi).1).symm
  · intro k hk
    rw [(assignOffsets_fields r0.header.order folded.1 0 k).2.2]
    exact htype k hk

/-- Witness for claim C4 at a concrete pair of chunk results (two columns,
first result's packing order `[1, 0]`). -/
theorem binaryChunksFold_spec_witness :
    (binaryChunksFold [[97], [98]]
      [⟨0, ⟨2, [1, 3], [7, 8], [1, 0]⟩⟩, ⟨1, ⟨1, [2, 2], [7, 8], [0, 1]⟩⟩]).columns.length = 2 ∧
    (binaryChunksFold [[97], [98]]
      [⟨0, ⟨2, [1, 3], [7, 8], [1, 0]⟩⟩, ⟨1, ⟨1, [2, 2], [7, 8], [0, 1]⟩⟩]).rowCount =
      (([⟨0, ⟨2, [1, 3], [7, 8], [1, 0]⟩⟩, ⟨1, ⟨1, [2, 2], [7, 8], [0, 1]⟩⟩] :
        List BinParseResult).map (fun r => r.header.rowCount)).sum ∧
    (binaryChunksFold [[97], [98]]
      [⟨0, ⟨2, [1, 3], [7, 8], [1, 0]⟩⟩, ⟨1, ⟨1, [2, 2], [7, 8], [0, 1]⟩⟩]).dataLength =
      (binaryChunksFold [[97], [98]]
        [⟨0, ⟨2, [1, 3], [7, 8], [1, 0]⟩⟩, ⟨1, ⟨1, [2, 2], [7, 8], [0, 1]⟩⟩]).rowLength *
      (binaryChunksFold [[97], [98]]
        [⟨0, ⟨2, [1, 3], [7, 8], [1, 0]⟩⟩, ⟨1, ⟨1, [2, 2], [7, 8], [0, 1]⟩⟩]).rowCount := by
  have h := binaryChunksFold_spec [[97], [98]]
    [⟨0, ⟨2, [1, 3], [7, 8], [1, 0]⟩⟩, ⟨1, ⟨1, [2, 2], [7, 8], [0, 1]⟩⟩]
    ⟨0, ⟨2, [1, 3], [7, 8], [1, 0]⟩⟩ [⟨1, ⟨1, [2, 2], [7, 8], [0, 1]⟩⟩]
    rfl (by decide) (by decide)
  exact ⟨h.1, h.2.2.1, h.2.2.2.2.1⟩

lemma range'_tail (k n : Nat) :
    (List.range' k (n - k)).tail = List.range' (min (k + 1) n) (n - min (k + 1) n) := by
  by_cases h : k < n
  · have h1 : n - k = (n - (k + 1)) + 1 := by omega
    have h2 : min (k + 1) n = k + 1 := by omega
    rw [h1, h2, List.range'_succ]
    rfl
  · have h1 : n - k = 0 := by omega
    have h2 : min (k + 1) n = n := by omega
    have h3 : n - n = 0 := by omega
    rw [h1, h2, h3]
    rfl

lemma range'_take1 (k n : Nat) :
    (List.range' k (n - k)).take 1 = if k < n then [k] else [] := by
  by_cases h : k < n
  · have h1 : n - k = (n - (k + 1)) + 1 := by omega
    rw [h1, List.range'_succ, if_pos h]
    rfl
  · have h1 : n - k = 0 := by omega
    rw [h1, if_neg h]
    rfl

lemma range_coe_succ (m : Nat) :
    (↑(List.range (m + 1)) : Multiset Nat) = ↑(List.range m) + {m} := by
  rw [List.range_succ, ← Multiset.coe_add, Multiset.coe_singleton]

lemma coe_append_singleton (l : List Nat) (a : Nat) :
    (↑(l ++ [a]) : Multiset Nat) = ↑l + {a} := by
  rw [← Multiset.coe_add, Multiset.coe_singleton]

lemma coe_split_mem (l : List Nat) (a : Nat) (h : a ∈ l) :
    (↑l : Multiset Nat) = {a} + ↑(l.erase a) := by
  rw [Multiset.singleton_add, ← Multiset.coe_erase, Multiset.cons_erase (Multiset.mem_coe.mpr h)]

lemma decide_or_absorb (P Q : Prop) [Decidable P] [Decidable Q] (h : P → Q) :
    (decide P || decide Q) = decide Q := by
  by_cases hP : P
  · simp [hP, h hP]
  · simp [hP]

lemma getD_map_range {α : Type} (f : Nat → α) (rc j : Nat) (d : α) (h : j < rc) :
    ((List.range rc).map f).getD j d = f j := by
  rw [List.getD_eq_getElem?_getD, List.getElem?_map, List.getElem?_range h]
  rfl

lemma canonicalEmit_proj (rcs : List Nat) :
    ∀ b, (canonicalEmit rcs b).map (fun t => (t.1, t.2.1)) = sourceRows rcs b := by
  intro b
  induction b with
  | zero => rfl
  | succ b ih =>
    simp only [canonicalEmit, List.map_append, ih, List.map_map]
    unfold sourceRows
    rw [List.range_succ, List.map_append, List.flatten_append]
    congr 1
    simp

lemma canonicalEmit_length (rcs : List Nat) :
    ∀ b, b ≤ rcs.length → (canonicalEmit rcs b).length = prefixSum rcs b := by
  intro b
  induction b with
  | zero => intro _; rfl
  | succ b ih =>
    intro hb
    simp only [canonicalEmit, List.length_append, List.length_map, List.length_range]
    rw [ih (by omega), prefixSum_succ rcs b (by omega)]

lemma canonicalEmit_third (rcs : List Nat) :
    ∀ b, b ≤ rcs.length → ∀ g, g < (canonicalEmit rcs b).length →
      ((canonicalEmit rcs b).getD g (0, 0, 0)).2.2 = g := by
  intro b
  induction b with
  | zero => intro _ g hg; simp [canonicalEmit] at hg
  | succ b ih =>
    intro hb g hg
    have hlb : (canonicalEmit rcs b).length = prefixSum rcs b :=
      canonicalEmit_length rcs b (by omega)
    by_cases hcase : g < (canonicalEmit rcs b).length
    · rw [canonicalEmit, List.getD_append _ _ _ _ hcase]
      exact ih (by omega) g hcase
    · have hge : (canonicalEmit rcs b).length ≤ g := by omega
      have hgtot : g < (canonicalEmit rcs b).length + rcs.getD b 0 := by
        simpa [canonicalEmit] using hg
      rw [canonicalEmit, List.getD_append_right _ _ _ _ hge]
      rw [getD_map_range _ _ _ _ (by omega)]
      simp only
      omega

lemma drainFuel_inv (n : Nat) (rcs : List Nat) (hn : n = rcs.length) :
    ∀ fuel t, t.buffered.length < fuel → DrainInv n rcs t →
      IterInv n rcs (drainFuel n rcs fuel t) := by
  intro fuel
  induction fuel with
  | zero => intro t hlen _; omega
  | succ fuel ih =>
    intro t hlen hinv
    obtain ⟨hn1, k, hk, hpend, hms, hclause, hemit, hidx, hres⟩ := hinv
    by_cases hmem : (t.blobIndex + 1) ∈ t.buffered
    · simp only [drainFuel]
      rw [if_pos hmem]
      have hbk : t.blobIndex + 1 < k := by
        have h1 : (t.blobIndex + 1) ∈ (↑(List.range k) : Multiset Nat) := by
          rw [hms]
          simp [hmem]
        rw [Multiset.mem_coe, List.mem_range] at h1
        exact h1
      have hbn : t.blobIndex + 1 < n := by omega
      set u : IterState := { t with blobIndex := t.blobIndex + 1, buffered := t.buffered.erase (t.blobIndex + 1) } with hu
      have hlen2 : (schedule (emitChunk n rcs u)).buffered.length < fuel := by
        show (t.buffered.erase (t.blobIndex + 1)).length < fuel
        have h2 := List.length_erase_of_mem hmem
        have hpos : 0 < t.buffered.length := List.length_pos.mpr
          (by intro hcon; rw [hcon] at hmem; simp at hmem)
        omega
      refine ih _ hlen2 ?_
      have hemit2 : (schedule (emitChunk n rcs u)).emitted =
          canonicalEmit rcs (t.blobIndex + 1 + 1) := by
        show t.emitted ++ (List.range (rcs.getD (t.blobIndex + 1) 0)).map
          (fun i => (t.blobIndex + 1, i, t.index + i)) = canonicalEmit rcs (t.blobIndex + 1 + 1)
        rw [hemit, hidx]
        rfl
      have hidx2 : (schedule (emitChunk n rcs u)).index =
          prefixSum rcs (t.blobIndex + 1 + 1) := by
        show t.index + rcs.getD (t.blobIndex + 1) 0 = prefixSum rcs (t.blobIndex + 1 + 1)
        rw [hidx, prefixSum_succ rcs (t.blobIndex + 1) (by omega)]
      have hres2 : (schedule (emitChunk n rcs u)).resolved =
          decide (n ≤ t.blobIndex + 1 + 1) := by
        show (t.resolved || decide (n ≤ t.blobIndex + 1 + 1)) =
          decide (n ≤ t.blobIndex + 1 + 1)
        rw [hres, decide_or_absorb _ _ (by omega)]
      by_cases hkn : k < n
      · refine ⟨hn1, k + 1, by omega, ?_, ?_, ?_, hemit2, hidx2, hres2⟩
        · show t.pending.tail = List.range' (k + 1) (n - (k + 1))
          rw [hpend, range'_tail]
          have hmin : min (k + 1) n = k + 1 := by omega
          rw [hmin]
        · show (↑(List.range (k + 1)) : Multiset Nat) =
            ↑(List.range (t.blobIndex + 1 + 1)) + ↑(t.inFlight ++ t.pending.take 1) +
              ↑(t.buffered.erase (t.blobIndex + 1))
          rw [hpend, range'_take1, if_pos hkn]
          rw [range_coe_succ k, range_coe_succ (t.blobIndex + 1), coe_append_singleton]
          rw [hms, coe_split_mem t.buffered (t.blobIndex + 1) hmem]
          abel
        · intro hcon
          have hcon2 : t.inFlight ++ t.pending.take 1 = [] := hcon
          rw [hpend, range'_take1, if_pos hkn] at hcon2
          simp at hcon2
      · have hkeq : k = n := by omega
        refine ⟨hn1, k, hk, ?_, ?_, ?_, hemit2, hidx2, hres2⟩
        · show t.pending.tail = List.range' k (n - k)
          rw [hpend, range'_tail]
          have hmin : min (k + 1) n = k := by omega
          rw [hmin]
        · show (↑(List.range k) : Multiset Nat) =
            ↑(List.range (t.blobIndex + 1 + 1)) + ↑(t.inFlight ++ t.pending.take 1) +
              ↑(t.buffered.erase (t.blobIndex + 1))
          rw [hpend, range'_take1, if_neg hkn, List.append_nil]
          rw [range_coe_succ (t.blobIndex + 1)]
          rw [hms, coe_split_mem t.buffered (t.blobIndex + 1) hmem]
          abel
        · intro _
          omega
    · simp only [drainFuel]
      rw [if_neg hmem]
      refine ⟨k, hk, hpend, hms, hmem, hclause, hemit, hidx, ?_⟩
      show t.resolved = decide (1 ≤ n ∧ n ≤ t.blobIndex + 1)
      rw [hres]
      exact decide_eq_decide.mpr (by omega)

lemma handleResult_inv (n : Nat) (rcs : List Nat) (hn : n = rcs.length) (c : Nat)
    (s : IterState) (hc : c ∈ s.inFlight) (hinv : IterInv n rcs s) :
    IterInv n rcs (handleResult n rcs c { s with inFlight := s.inFlight.erase c }) := by
  obtain ⟨k, hk, hpend, hms, hbnb, hclause, hemit, hidx, hres⟩ := hinv
  have hck : c < k := by
    have h1 : c ∈ (↑(List.range k) : Multiset Nat) := by
      rw [hms]
      simp [hc]
    rw [Multiset.mem_coe, List.mem_range] at h1
    exact h1
  have hinFsplit : (↑s.inFlight : Multiset Nat) = {c} + ↑(s.inFlight.erase c) :=
    coe_split_mem s.inFlight c hc
  by_cases hcb : c = s.blobIndex
  · have hbn : s.blobIndex < n := by omega
    have hresF : s.resolved = false := by
      rw [hres]
      exact decide_eq_false (by omega)
    rw [handleResult, if_pos hcb]
    show IterInv n rcs (drain n rcs
      (schedule (emitChunk n rcs { s with inFlight := s.inFlight.erase c })))
    rw [drain]
    apply drainFuel_inv n rcs hn
    · show (s.buffered.length + 1) ≤ s.buffered.length + 1
      omega
    · have hemit2 : (schedule (emitChunk n rcs
          { s with inFlight := s.inFlight.erase c })).emitted =
          canonicalEmit rcs (s.blobIndex + 1) := by
        show s.emitted ++ (List.range (rcs.getD s.blobIndex 0)).map
          (fun i => (s.blobIndex, i, s.index + i)) = canonicalEmit rcs (s.blobIndex + 1)
        rw [hemit, hidx]
        rfl
      have hidx2 : (schedule (emitChunk n rcs
          { s with inFlight := s.inFlight.erase c })).index =
          prefixSum rcs (s.blobIndex + 1) := by
        show s.index + rcs.getD s.blobIndex 0 = prefixSum rcs (s.blobIndex + 1)
        rw [hidx, prefixSum_succ rcs s.blobIndex (by omega)]
      have hres2 : (schedule (emitChunk n rcs
          { s with inFlight := s.inFlight.erase c })).resolved =
          decide (n ≤ s.blobIndex + 1) := by
        show (s.resolved || decide (n ≤ s.blobIndex + 1)) = decide (n ≤ s.blobIndex + 1)
        rw [hresF]
        simp
      by_cases hkn : k < n
      · refine ⟨by omega, k + 1, by omega, ?_, ?_, ?_, hemit2, hidx2, hres2⟩
        · show s.pending.tail = List.range' (k + 1) (n - (k + 1))
          rw [hpend, range'_tail]
          have hmin : min (k + 1) n = k + 1 := by omega
          rw [hmin]
        · show (↑(List.range (k + 1)) : Multiset Nat) =
            ↑(List.range (s.blobIndex + 1)) + ↑(s.inFlight.erase c ++ s.pending.take 1) +
              ↑s.buffered
          rw [hpend, range'_take1, if_pos hkn, coe_append_singleton]
          rw [range_coe_succ k, range_coe_succ s.blobIndex]
          rw [hms, hinFsplit, hcb]
          abel
        · intro hcon
          have hcon2 : s.inFlight.erase c ++ s.pending.take 1 = [] := hcon
          rw [hpend, range'_take1, if_pos hkn] at hcon2
          simp at hcon2
      · have hkeq : k = n := by omega
        refine ⟨by omega, k, hk, ?_, ?_, ?_, hemit2, hidx2, hres2⟩
        · show s.pending.tail = List.range' k (n - k)
          rw [hpend, range'_tail]
          have hmin : min (k + 1) n = k := by omega
          rw [hmin]
        · show (↑(List.range k) : Multiset Nat) =
            ↑(List.range (s.blobIndex + 1)) + ↑(s.inFlight.erase c ++ s.pending.take 1) +
              ↑s.buffered
          rw [hpend, range'_take1, if_neg hkn, List.append_nil]
          rw [range_coe_succ s.blobIndex]
          rw [hms, hinFsplit, hcb]
          abel
        · intro _
          omega
  · rw [handleResult, if_neg hcb]
    refine ⟨k, hk, hpend, ?_, ?_, ?_, hemit, hidx, hres⟩
    · show (↑(List.range k) : Multiset Nat) =
        ↑(List.range s.blobIndex) + ↑(s.inFlight.erase c) + ↑(s.buffered ++ [c])
      rw [coe_append_singleton, hms, hinFsplit]
      abel
    · show s.blobIndex ∉ s.buffered ++ [c]
      intro hcon
      rcases List.mem_append.mp hcon with h | h
      · exact hbnb h
      · simp at h
        exact hcb h.symm
    · intro hcon
      exfalso
      have hcon2 : s.inFlight.erase c = [] := hcon
      have hsingle : (↑s.inFlight : Multiset Nat) = {c} := by
        rw [hinFsplit, hcon2]
        rfl
      have hms2 : (↑(List.range k) : Multiset Nat) =
          ↑(List.range s.blobIndex) + {c} + ↑s.buffered := by
        rw [hms, hsingle]
      have hcard : k = s.blobIndex + 1 + s.buffered.length := by
        have := congrArg Multiset.card hms2
        simpa using this
      have hblt : s.blobIndex < k := by omega
      have hbmem : s.blobIndex ∈ (↑(List.range k) : Multiset Nat) := by
        rw [Multiset.mem_coe, List.mem_range]
        exact hblt
      rw [hms2] at hbmem
      simp only [Multiset.mem_add, Multiset.mem_coe, Multiset.mem_singleton] at hbmem
      rcases hbmem with (h | h) | h
      · rw [List.mem_range] at h
        omega
      · exact hcb h.symm
      · exact hbnb h

lemma iterStep_inv (n : Nat) (rcs : List Nat) (hn : n = rcs.length) (c : Nat)
    (s s' : IterState) (hstep : iterStep n rcs s c = some s') (hinv : IterInv n rcs s) :
    IterInv n rcs s' := by
  rw [iterStep] at hstep
  by_cases hc : c ∈ s.inFlight
  · rw [if_pos hc, Option.some.injEq] at hstep
    rw [← hstep]
    exact handleResult_inv n rcs hn c s hc hinv
  · rw [if_neg hc] at hstep
    cases hstep

lemma runEvents_inv (n : Nat) (rcs : List Nat) (hn : n = rcs.length) :
    ∀ (σ : List Nat) (s s' : IterState), IterInv n rcs s →
      runEvents n rcs s σ = some s' → IterInv n rcs s' := by
  intro σ
  induction σ with
  | nil =>
    intro s s' hinv h
    rw [runEvents, Option.some.injEq] at h
    rwa [← h]
  | cons c cs ih =>
    intro s s' hinv h
    rw [runEvents] at h
    cases hstep : iterStep n rcs s c with
    | none => rw [hstep] at h; cases h
    | some s1 =>
      rw [hstep] at h
      exact ih s1 s' (iterStep_inv n rcs hn c s s1 hstep hinv) h

lemma initState_spec (n : Nat) : ∀ (p : Nat),
    (initState p n).pending = List.range' (min p n) (n - min p n) ∧
    (initState p n).inFlight = List.range (min p n) ∧
    (initState p n).buffered = [] ∧
    (initState p n).blobIndex = 0 ∧
    (initState p n).index = 0 ∧
    (initState p n).emitted = [] ∧
    (initState p n).resolved = false := by
  intro p
  induction p with
  | zero =>
    have hmin : min 0 n = 0 := by omega
    refine ⟨?_, ?_, rfl, rfl, rfl, rfl, rfl⟩
    · show List.range n = List.range' (min 0 n) (n - min 0 n)
      rw [hmin, Nat.sub_zero]
      exact List.range_eq_range' n
    · show ([] : List Nat) = List.range (min 0 n)
      rw [hmin]
      rfl
  | succ p ih =>
    obtain ⟨h1, h2, h3, h4, h5, h6, h7⟩ := ih
    have hiter : initState (p + 1) n = schedule (initState p n) := by
      unfold initState
      exact Function.iterate_succ_apply' schedule p _
    rw [hiter]
    refine ⟨?_, ?_, h3, h4, h5, h6, h7⟩
    · show (initState p n).pending.tail = List.range' (min (p + 1) n) (n - min (p + 1) n)
      rw [h1, range'_tail]
      have hmm : min (min p n + 1) n = min (p + 1) n := by omega
      rw [hmm]
    · show (initState p n).inFlight ++ (initState p n).pending.take 1 =
        List.range (min (p + 1) n)
      rw [h2, h1, range'_take1]
      by_cases hpn : min p n < n
      · rw [if_pos hpn, ← List.range_succ]
        congr 1
        omega
      · rw [if_neg hpn, List.append_nil]
        have hmm : min p n = min (p + 1) n := by omega
        rw [hmm]

lemma initState_inv (n : Nat) (rcs : List Nat) (p : Nat) (hp : 1 ≤ p) :
    IterInv n rcs (initState p n) := by
  obtain ⟨h1, h2, h3, h4, h5, h6, h7⟩ := initState_spec n p
  refine ⟨min p n, by omega, h1, ?_, ?_, ?_, ?_, ?_, ?_⟩
  · rw [h4, h2, h3]
    simp
  · rw [h4, h3]
    simp
  · intro hcon
    rw [h2, List.range_eq_nil] at hcon
    omega
  · rw [h6, h4]
    rfl
  · rw [h5, h4]
    rfl
  · rw [h7, h4]
    exact (decide_eq_false (by omega)).symm

lemma final_inv (n : Nat) (rcs : List Nat) (s : IterState)
    (hinv : IterInv n rcs s) (hfin : s.inFlight = []) :
    s.blobIndex = n ∧ s.emitted = canonicalEmit rcs n ∧ s.resolved = decide (1 ≤ n) := by
  obtain ⟨k, hk, hpend, hms, hbnb, hclause, hemit, hidx, hres⟩ := hinv
  have hkn : k = n := le_antisymm hk (hclause hfin)
  subst hkn
  rw [hfin] at hms
  have hms2 : (↑(List.range k) : Multiset Nat) =
      ↑(List.range s.blobIndex) + ↑s.buffered := by
    rw [hms]
    simp
  have hcard : k = s.blobIndex + s.buffered.length := by
    have := congrArg Multiset.card hms2
    simpa using this
  have hble : ¬ (s.blobIndex < k) := by
    intro hlt
    have hbmem : s.blobIndex ∈ (↑(List.range k) : Multiset Nat) := by
      rw [Multiset.mem_coe, List.mem_range]
      exact hlt
    rw [hms2] at hbmem
    simp only [Multiset.mem_add, Multiset.mem_coe] at hbmem
    rcases hbmem with h | h
    · rw [List.mem_range] at h
      omega
    · exact hbnb h
  have hbeq : s.blobIndex = k := by omega
  refine ⟨hbeq, ?_, ?_⟩
  · rw [hemit, hbeq]
  · rw [hres, hbeq]
    exact decide_eq_decide.mpr (by omega)

/-- Claim C1: for any input (per-chunk row counts `rcs`), any pool size
`p ≥ 1` and any valid, exhaustive order of task completions, `iterateBlobs`
invokes the row callback exactly once per row in strict source order — the
emitted `(chunk, row)` pairs are exactly `sourceRows rcs n` — and the second
argument passed at each invocation equals the invocation's zero-based
position in that order. -/
theorem iterateBlobs_row_order (n p : Nat) (rcs σ : List Nat) (s' : IterState)
    (hp : 1 ≤ p) (hn : rcs.length = n)
    (hrun : runEvents n rcs (initState p n) σ = some s') (hfin : s'.inFlight = []) :
    s'.emitted.map (fun t => (t.1, t.2.1)) = sourceRows rcs n ∧
    (∀ g, g < s'.emitted.length → (s'.emitted.getD g (0, 0, 0)).2.2 = g) := by
  have hn' : n = rcs.length := hn.symm
  have hinv := runEvents_inv n rcs hn' σ _ s' (initState_inv n rcs p hp) hrun
  obtain ⟨hb, hemit, hres⟩ := final_inv n rcs s' hinv hfin
  rw [hemit]
  exact ⟨canonicalEmit_proj rcs n,
    fun g hg => canonicalEmit_third rcs n (by omega) g hg⟩

/-- Witness for claim C1: two chunks of one row each, pool size 1,
completions in order. -/
theorem iterateBlobs_row_order_witness :
    (runEvents 2 [1, 1] (initState 1 2) [0, 1] =
      some ⟨[], [], [], 2, 2, [(0, 0, 0), (1, 0, 1)], true⟩) ∧
    ((⟨[], [], [], 2, 2, [(0, 0, 0), (1, 0, 1)], true⟩ : IterState).emitted.map
        (fun t => (t.1, t.2.1)) = sourceRows [1, 1] 2 ∧
      (∀ g, g < (⟨[], [], [], 2, 2, [(0, 0, 0), (1, 0, 1)], true⟩ :
          IterState).emitted.length →
        ((⟨[], [], [], 2, 2, [(0, 0, 0), (1, 0, 1)], true⟩ :
          IterState).emitted.getD g (0, 0, 0)).2.2 = g)) :=
  ⟨by decide,
   iterateBlobs_row_order 2 1 [1, 1] [0, 1] _ (by decide) (by decide) (by decide) (by decide)⟩

/-- Claim C8: for a non-empty chunk list, pool size ≥ 1 and any valid,
exhaustive order of task completions (out-of-order completions included),
the `iterateBlobs` run reaches the resolved state — `resolve()` has been
called — once the last chunk has been consumed (`blobIndex = n`); buffered
out-of-order results never leave the machine unresolved after all
completions. -/
theorem iterateBlobs_resolves (n p : Nat) (rcs σ : List Nat) (s' : IterState)
    (hn1 : 1 ≤ n) (hp : 1 ≤ p) (hn : rcs.length = n)
    (hrun : runEvents n rcs (initState p n) σ = some s') (hfin : s'.inFlight = []) :
    s'.resolved = true ∧ s'.blobIndex = n := by
  have hn' : n = rcs.length := hn.symm
  have hinv := runEvents_inv n rcs hn' σ _ s' (initState_inv n rcs p hp) hrun
  obtain ⟨hb, hemit, hres⟩ := final_inv n rcs s' hinv hfin
  refine ⟨?_, hb⟩
  rw [hres]
  simpa using hn1

/-- Witness for claim C8: two chunks completing out of order (chunk 1's task
finishes first and is buffered), pool size 2. -/
theorem iterateBlobs_resolves_witness :
    (runEvents 2 [1, 2] (initState 2 2) [1, 0] =
      some ⟨[], [], [], 2, 3, [(0, 0, 0), (1, 0, 1), (1, 1, 2)], true⟩) ∧
    ((⟨[], [], [], 2, 3, [(0, 0, 0), (1, 0, 1), (1, 1, 2)], true⟩ :
        IterState).resolved = true ∧
      (⟨[], [], [], 2, 3, [(0, 0, 0), (1, 0, 1), (1, 1, 2)], true⟩ :
        IterState).blobIndex = 2) :=
  ⟨by decide,
   iterateBlobs_resolves 2 2 [1, 2] [1, 0] _ (by decide) (by decide) (by decide) (by decide)
     (by decide)⟩

end HugeCSV
